import Mathlib

/-!
Verification of the bulk email-automation frontend and its template/CSV
helpers.  The definitions below are shallow embeddings of the TypeScript
source (`TableEditor.tsx`, `TemplateEditor.tsx`, `app/api/templates`),
with JavaScript strings modelled as `String`/`List Char` and the stateful
fetch pipeline of `handleSend` modelled as a pure function returning
either the client-side error or the pair of backend requests it issues.
-/

namespace EmailAutomation

/-! ### JavaScript string primitives -/

/-- The whitespace characters stripped by JavaScript `String.prototype.trim`
(ECMAScript WhiteSpace and LineTerminator code points). -/
def isJsWs (c : Char) : Bool :=
  c = ' ' ∨ c = '\t' ∨ c = '\n' ∨ c = '\r' ∨ c.val = 0x0B ∨ c.val = 0x0C ∨
  c.val = 0xA0 ∨ c.val = 0x1680 ∨ (0x2000 ≤ c.val ∧ c.val ≤ 0x200A) ∨
  c.val = 0x2028 ∨ c.val = 0x2029 ∨ c.val = 0x202F ∨ c.val = 0x205F ∨
  c.val = 0x3000 ∨ c.val = 0xFEFF

/-- Model of `s.trim()` on the character list of a JS string. -/
def jsTrimList (l : List Char) : List Char :=
  ((l.dropWhile isJsWs).reverse.dropWhile isJsWs).reverse

/-- Model of `s.trim()` on `String`. -/
def jsTrim (s : String) : String :=
  String.mk (jsTrimList s.data)

/-- Model of `s.toLowerCase()` (ASCII range; all inputs relevant to the
claims are ASCII, where JS `toLowerCase` agrees with `Char.toLower`). -/
def jsLower (s : String) : String :=
  String.mk (s.data.map Char.toLower)

theorem mem_dropWhile_of_not {p : Char → Bool} {c : Char} :
    ∀ {l : List Char}, c ∈ l → p c = false → c ∈ l.dropWhile p := by
  intro l hmem hpc
  induction l with
  | nil => cases hmem
  | cons a l ih =>
    by_cases ha : p a = true
    · rw [List.dropWhile_cons_of_pos ha]
      rcases List.mem_cons.mp hmem with rfl | h
      · rw [ha] at hpc; cases hpc
      · exact ih h
    · rw [List.dropWhile_cons_of_neg ha]
      exact hmem

theorem mem_jsTrimList_of_not_ws {c : Char} {l : List Char}
    (hmem : c ∈ l) (hws : isJsWs c = false) : c ∈ jsTrimList l := by
  unfold jsTrimList
  rw [List.mem_reverse]
  apply mem_dropWhile_of_not _ hws
  rw [List.mem_reverse]
  exact mem_dropWhile_of_not hmem hws

theorem jsTrimList_ne_nil {l : List Char} {c : Char}
    (hmem : c ∈ l) (hws : isJsWs c = false) : jsTrimList l ≠ [] :=
  List.ne_nil_of_mem (mem_jsTrimList_of_not_ws hmem hws)

theorem mem_of_mem_jsTrimList {c : Char} {l : List Char}
    (h : c ∈ jsTrimList l) : c ∈ l := by
  unfold jsTrimList at h
  rw [List.mem_reverse] at h
  have h1 := List.dropWhile_sublist (l := (l.dropWhile isJsWs).reverse) (p := isJsWs)
  have h2 := h1.mem h
  rw [List.mem_reverse] at h2
  exact (List.dropWhile_sublist (l := l) (p := isJsWs)).mem h2

/-! ### `TableEditor.handleSend` and its validation pipeline

`handleSend` (src/components/TableEditor.tsx) runs `validateData`, then a
series of guards, then builds the records uploaded to `/upload-json` and
the payload posted to `/emails/send-bulk`.  We model the component state it
reads and the pair of requests it issues; `Except.error` models an early
return with `setSendError` (no fetch is performed in that case, since both
fetches happen after every guard). -/

structure TableState where
  headers : List String
  data : List (List String)
  selectedTemplateId : String
  emailSubject : String
  ccInput : String
  withAttachments : Bool

/-- The `data.forEach((row, i) => ...)` loop of `validateData`: one message
per row whose column count differs from the header count. -/
def rowCountErrors (colCount : Nat) : Nat → List (List String) → List String
  | _, [] => []
  | i, row :: rest =>
    (if row.length ≠ colCount then
      ["Row " ++ toString (i + 1) ++ " has wrong column count"]
    else []) ++ rowCountErrors colCount (i + 1) rest

/-- Model of `validateData` (src/components/TableEditor.tsx:235):
"No headers found" when there are no headers, plus the per-row messages. -/
def validateErrors (headers : List String) (data : List (List String)) : List String :=
  (if headers = [] then ["No headers found"] else []) ++
    rowCountErrors headers.length 0 data

/-- `headers.map((h) => (h || "").trim().toLowerCase())` -/
def normalizedHeaders (headers : List String) : List String :=
  headers.map fun h => jsLower (jsTrim h)

/-- Does the JS object (modelled as an ordered list of properties) already
have property `k`? -/
def hasKey (rec : List (String × String)) (k : String) : Bool :=
  rec.any fun p => p.1 == k

/-- JS object property assignment `record[key] = v`: overwrite in place if
the key exists, otherwise append the new property. -/
def upsert (rec : List (String × String)) (k v : String) : List (String × String) :=
  if hasKey rec k then
    rec.map fun p => if p.1 == k then (k, v) else p
  else rec ++ [(k, v)]

/-- The body of the `headers.forEach((header, index) => ...)` loop building
one record: `key = (header ?? "").trim()`; empty keys are skipped and
`record[key] = row[index] ?? ""`. -/
def recordStep (row : List String) (rec : List (String × String))
    (p : Nat × String) : List (String × String) :=
  if jsTrim p.2 = "" then rec else upsert rec (jsTrim p.2) (row.getD p.1 "")

/-- One record of the `/upload-json` body, built from the headers (paired
with their indices) and one data row. -/
def buildRecord (headers : List String) (row : List String) : List (String × String) :=
  ((List.range headers.length).zip headers).foldl (recordStep row) []

/-- `ccInput.split(",").map(trim).filter(Boolean)`, at the character level.
JS `split(",")` on the empty string yields `[""]` and keeps empty
components, which `filter(Boolean)` then removes. -/
def splitCommas : List Char → List (List Char)
  | [] => [[]]
  | ',' :: rest => [] :: splitCommas rest
  | c :: rest =>
    match splitCommas rest with
    | l :: ls => (c :: l) :: ls
    | [] => [[c]]

def ccParse (s : String) : List String :=
  (((splitCommas s.data).map jsTrimList).filter fun l => l ≠ []).map String.mk

/-- The single `/emails/send-bulk` payload built by `handleSend`, together
with the `/upload-json` body (`uploadRows`).  `upload_id` is returned by the
backend and merely echoed, so it is not part of the model. -/
structure BulkRequest where
  uploadRows : List (List (String × String))
  withAttachments : Bool
  skipSent : Bool
  ccList : List String
  templateId : String
  subject : Option String
  deriving DecidableEq

/-- Model of `handleSend` (src/components/TableEditor.tsx:257), following
the exact guard order of the source. -/
def handleSend (st : TableState) : Except String BulkRequest :=
  if validateErrors st.headers st.data ≠ [] then
    .error "Please resolve the data validation issues before sending."
  else if st.selectedTemplateId = "" then
    .error "Select an email template before sending."
  else if st.data = [] then
    .error "Add at least one recipient row before sending."
  else if ¬ ("email" ∈ normalizedHeaders st.headers) then
    .error "Your dataset must include an email column."
  else if ¬ ("recipient" ∈ normalizedHeaders st.headers) then
    .error "Your dataset must include a recipient column."
  else
    .ok { uploadRows := st.data.map (buildRecord st.headers)
          withAttachments := st.withAttachments
          skipSent := true
          ccList := ccParse st.ccInput
          templateId := st.selectedTemplateId
          subject := if jsTrim st.emailSubject ≠ "" then some (jsTrim st.emailSubject) else none }

theorem rowCountErrors_ne_nil {n : Nat} :
    ∀ {data : List (List String)} (i : Nat) {row : List String},
      row ∈ data → row.length ≠ n → rowCountErrors n i data ≠ [] := by
  intro data
  induction data with
  | nil => intro _ _ h; cases h
  | cons a rest ih =>
    intro i row hmem hlen
    unfold rowCountErrors
    rcases List.mem_cons.mp hmem with rfl | hmem'
    · rw [if_pos hlen]
      simp
    · intro hcontra
      rcases List.append_eq_nil.mp hcontra with ⟨_, h2⟩
      exact ih (i + 1) hmem' hlen h2

/-- Characterization of a successful `handleSend`: every guard passed and
the issued requests are exactly the ones built from the table state. -/
theorem handleSend_ok_iff (st : TableState) (req : BulkRequest) :
    handleSend st = .ok req ↔
      validateErrors st.headers st.data = [] ∧
      st.selectedTemplateId ≠ "" ∧
      st.data ≠ [] ∧
      "email" ∈ normalizedHeaders st.headers ∧
      "recipient" ∈ normalizedHeaders st.headers ∧
      req = { uploadRows := st.data.map (buildRecord st.headers)
              withAttachments := st.withAttachments
              skipSent := true
              ccList := ccParse st.ccInput
              templateId := st.selectedTemplateId
              subject := if jsTrim st.emailSubject ≠ "" then
                           some (jsTrim st.emailSubject)
                         else none } := by
  unfold handleSend
  constructor
  · intro h
    split at h
    · exact absurd h (by simp)
    · split at h
      · exact absurd h (by simp)
      · split at h
        · exact absurd h (by simp)
        · split at h
          · exact absurd h (by simp)
          · split at h
            · exact absurd h (by simp)
            · rename_i hv ht hd he hr
              injection h with h
              exact ⟨not_not.mp hv, ht, hd, not_not.mp he, not_not.mp hr, h.symm⟩
  · rintro ⟨h1, h2, h3, h4, h5, rfl⟩
    rw [if_neg (not_not.mpr h1), if_neg h2, if_neg h3,
        if_neg (not_not.mpr h4), if_neg (not_not.mpr h5)]

/-- C2: if any data row's column count differs from the header count,
`handleSend` stops with the validation error message; in the model an
`Except.error` result means neither the `/upload-json` nor the
`/emails/send-bulk` fetch is reached, so the backend is not contacted and
the malformed row is rejected before dispatch begins. -/
theorem mismatched_row_blocks_send (st : TableState) (row : List String)
    (hmem : row ∈ st.data) (hlen : row.length ≠ st.headers.length) :
    handleSend st = .error "Please resolve the data validation issues before sending." ∧
    ∀ req : BulkRequest, handleSend st ≠ .ok req := by
  have hval : validateErrors st.headers st.data ≠ [] := by
    unfold validateErrors
    intro hcontra
    rcases List.append_eq_nil.mp hcontra with ⟨_, h2⟩
    exact rowCountErrors_ne_nil 0 hmem hlen h2
  constructor
  · unfold handleSend
    rw [if_pos hval]
  · intro req hok
    exact hval ((handleSend_ok_iff st req).mp hok).1

theorem mismatched_row_blocks_send_witness :
    (["a"] ∈ [["a"], ["b", "c"]] ∧ ([("a" : String)]).length ≠ (["h1", "h2"] : List String).length) ∧
    handleSend { headers := ["h1", "h2"], data := [["a"], ["b", "c"]],
                 selectedTemplateId := "t", emailSubject := "", ccInput := "",
                 withAttachments := true }
      = .error "Please resolve the data validation issues before sending." :=
  ⟨⟨by decide, by decide⟩,
    (mismatched_row_blocks_send
      { headers := ["h1", "h2"], data := [["a"], ["b", "c"]],
        selectedTemplateId := "t", emailSubject := "", ccInput := "",
        withAttachments := true }
      ["a"] (by decide) (by decide)).1⟩

/-- C5: `handleSend` accepts a dataset only if the trimmed-and-lowercased
headers include both `"email"` and `"recipient"`; any header spelling that
trims and lowercases to one of the two passes that check, and a dataset
lacking either column never reaches the backend (no `.ok` result). -/
theorem mandatory_columns_case_insensitive (st : TableState) :
    (∀ req : BulkRequest, handleSend st = .ok req →
      "email" ∈ normalizedHeaders st.headers ∧
      "recipient" ∈ normalizedHeaders st.headers) ∧
    (∀ h ∈ st.headers, jsLower (jsTrim h) = "email" →
      "email" ∈ normalizedHeaders st.headers) ∧
    (∀ h ∈ st.headers, jsLower (jsTrim h) = "recipient" →
      "recipient" ∈ normalizedHeaders st.headers) ∧
    (("email" ∉ normalizedHeaders st.headers ∨
      "recipient" ∉ normalizedHeaders st.headers) →
      ∀ req : BulkRequest, handleSend st ≠ .ok req) := by
  refine ⟨?_, ?_, ?_, ?_⟩
  · intro req hok
    have h := (handleSend_ok_iff st req).mp hok
    exact ⟨h.2.2.2.1, h.2.2.2.2.1⟩
  · intro hh hm he
    unfold normalizedHeaders
    exact List.mem_map.mpr ⟨hh, hm, he⟩
  · intro hh hm he
    unfold normalizedHeaders
    exact List.mem_map.mpr ⟨hh, hm, he⟩
  · rintro (hmiss | hmiss) req hok
    · exact hmiss ((handleSend_ok_iff st req).mp hok).2.2.2.1
    · exact hmiss ((handleSend_ok_iff st req).mp hok).2.2.2.2.1

theorem mandatory_columns_case_insensitive_witness :
    "email" ∈ normalizedHeaders [" EMail ", "RECIPIENT"] :=
  (mandatory_columns_case_insensitive
    { headers := [" EMail ", "RECIPIENT"], data := [["a", "b"]],
      selectedTemplateId := "t", emailSubject := "", ccInput := "",
      withAttachments := true }).2.1 " EMail " (by decide) (by decide)

/-! ### Properties of record building (claim C4) -/

theorem mem_upsert {rec : List (String × String)} {k v : String}
    {p : String × String} (h : p ∈ upsert rec k v) : p ∈ rec ∨ p.1 = k := by
  unfold upsert at h
  split at h
  · rcases List.mem_map.mp h with ⟨q, hq, hqe⟩
    by_cases hk : q.1 == k
    · rw [if_pos hk] at hqe
      right; rw [← hqe]
    · rw [if_neg hk] at hqe
      left; rw [← hqe]; exact hq
  · rcases List.mem_append.mp h with h' | h'
    · exact Or.inl h'
    · right
      rw [List.mem_singleton.mp h']

theorem hasKey_upsert_self (rec : List (String × String)) (k v : String) :
    hasKey (upsert rec k v) k = true := by
  unfold upsert
  split
  · rename_i hany
    unfold hasKey at hany ⊢
    rcases List.any_eq_true.mp hany with ⟨q, hq, hqk⟩
    apply List.any_eq_true.mpr
    exact ⟨(k, v), List.mem_map.mpr ⟨q, hq, by rw [if_pos hqk]⟩, by simp⟩
  · unfold hasKey
    apply List.any_eq_true.mpr
    exact ⟨(k, v), List.mem_append.mpr (Or.inr (List.mem_singleton.mpr rfl)), by simp⟩

theorem hasKey_upsert_mono {rec : List (String × String)} {k' : String}
    (k v : String) (h : hasKey rec k' = true) :
    hasKey (upsert rec k v) k' = true := by
  unfold hasKey at h
  rcases List.any_eq_true.mp h with ⟨q, hq, hqk⟩
  unfold upsert
  split
  · unfold hasKey
    apply List.any_eq_true.mpr
    by_cases hk : q.1 == k
    · refine ⟨(k, v), List.mem_map.mpr ⟨q, hq, by rw [if_pos hk]⟩, ?_⟩
      have h1 : q.1 = k := eq_of_beq hk
      have h2 : q.1 = k' := eq_of_beq hqk
      simp [← h1, h2]
    · exact ⟨q, List.mem_map.mpr ⟨q, hq, by rw [if_neg hk]⟩, hqk⟩
  · unfold hasKey
    apply List.any_eq_true.mpr
    exact ⟨q, List.mem_append.mpr (Or.inl hq), hqk⟩

theorem recordStep_hasKey_mono {rec : List (String × String)} {k' : String}
    (row : List String) (p : Nat × String) (h : hasKey rec k' = true) :
    hasKey (recordStep row rec p) k' = true := by
  unfold recordStep
  split
  · exact h
  · exact hasKey_upsert_mono _ _ h

theorem foldl_recordStep_hasKey_mono {row : List String} {k' : String} :
    ∀ (l : List (Nat × String)) (rec : List (String × String)),
      hasKey rec k' = true →
      hasKey (l.foldl (recordStep row) rec) k' = true := by
  intro l
  induction l with
  | nil => intro rec h; exact h
  | cons q rest ih =>
    intro rec h
    exact ih _ (recordStep_hasKey_mono row q h)

theorem foldl_recordStep_hasKey {row : List String} {k : String} :
    ∀ (l : List (Nat × String)) (rec : List (String × String)),
      (∃ q ∈ l, jsTrim q.2 = k) → k ≠ "" →
      hasKey (l.foldl (recordStep row) rec) k = true := by
  intro l
  induction l with
  | nil => rintro rec ⟨q, hq, _⟩ _; cases hq
  | cons q rest ih =>
    rintro rec ⟨q', hq', hk⟩ hne
    rcases List.mem_cons.mp hq' with rfl | hmem
    · rw [List.foldl_cons]
      apply foldl_recordStep_hasKey_mono
      unfold recordStep
      rw [hk, if_neg hne]
      exact hasKey_upsert_self rec k _
    · exact ih _ ⟨q', hmem, hk⟩ hne

theorem foldl_recordStep_keys {row : List String}
    {P : String → Prop} :
    ∀ (l : List (Nat × String)) (rec : List (String × String)),
      (∀ p ∈ rec, P p.1) → (∀ q ∈ l, jsTrim q.2 ≠ "" → P (jsTrim q.2)) →
      ∀ p ∈ l.foldl (recordStep row) rec, P p.1 := by
  intro l
  induction l with
  | nil => intro rec hrec _ p hp; exact hrec p hp
  | cons q rest ih =>
    intro rec hrec hl p hp
    refine ih _ ?_ (fun q' hq' => hl q' (List.mem_cons_of_mem _ hq')) p hp
    intro p' hp'
    unfold recordStep at hp'
    split at hp'
    · exact hrec p' hp'
    · rename_i hne
      rcases mem_upsert hp' with h' | h'
      · exact hrec p' h'
      · rw [h']
        exact hl q (List.mem_cons_self _ _) hne

theorem mem_zip_range {α : Type} {l : List α} {x : α} (h : x ∈ l) :
    ∃ p ∈ (List.range l.length).zip l, p.2 = x := by
  obtain ⟨i, hx⟩ := List.mem_iff_get.mp h
  have hlen : i.1 < ((List.range l.length).zip l).length := by
    simp only [List.length_zip, List.length_range, Nat.min_self]
    exact i.2
  refine ⟨(i.1, x), ?_, rfl⟩
  have heq : ((List.range l.length).zip l).get ⟨i.1, hlen⟩ = (i.1, x) := by
    rw [List.get_eq_getElem, List.getElem_zip, List.getElem_range]
    rw [← hx, List.get_eq_getElem]
  exact heq ▸ List.get_mem _ _ hlen

theorem mem_of_mem_zip_range {α : Type} {n : Nat} {l : List α}
    {p : Nat × α} (h : p ∈ (List.range n).zip l) : p.2 ∈ l :=
  (List.of_mem_zip h).2

/-- A table whose mandatory columns are spelled with capital letters: it
passes the case-insensitive column check of `handleSend`. -/
def capitalState : TableState :=
  { headers := ["Email", "Recipient"], data := [["a@x.com", "Ana"]],
    selectedTemplateId := "t", emailSubject := "", ccInput := "",
    withAttachments := true }

/-- The requests `handleSend` issues for `capitalState`. -/
def capitalRequest : BulkRequest :=
  { uploadRows := [[("Email", "a@x.com"), ("Recipient", "Ana")]],
    withAttachments := true, skipSent := true, ccList := [],
    templateId := "t", subject := none }

/-- C4 counterexample: for the accepted dataset with headers
`["Email", "Recipient"]`, the uploaded record keeps the keys `"Email"` and
`"Recipient"` — no field is keyed by the normalized name `"email"`, so
record keys are not normalized as the claim states. -/
theorem record_keys_not_normalized_counterexample :
    handleSend capitalState = .ok capitalRequest ∧
    ¬ (∀ rec ∈ capitalRequest.uploadRows, ∃ p ∈ rec, p.1 = "email") ∧
    (∀ rec ∈ capitalRequest.uploadRows, ∃ p ∈ rec, p.1 = "Email" ∧ p.2 = "a@x.com") :=
  ⟨rfl, by decide, by decide⟩

/-- C4 (amended): record keys are the trimmed headers with their original
capitalization, not lowercased: every key of every uploaded record is
`jsTrim h` for some header `h`, and only when some header trims to exactly
`"email"` (resp. `"recipient"`) does every record carry that exact key. -/
theorem record_keys_are_trimmed_headers (st : TableState) (req : BulkRequest)
    (hok : handleSend st = .ok req) :
    (∀ rec ∈ req.uploadRows, ∀ p ∈ rec,
        ∃ h ∈ st.headers, p.1 = jsTrim h ∧ p.1 ≠ "") ∧
    ("email" ∈ st.headers.map jsTrim →
      ∀ rec ∈ req.uploadRows, hasKey rec "email" = true) ∧
    ("recipient" ∈ st.headers.map jsTrim →
      ∀ rec ∈ req.uploadRows, hasKey rec "recipient" = true) := by
  have hreq := ((handleSend_ok_iff st req).mp hok).2.2.2.2.2
  have hrows : req.uploadRows = st.data.map (buildRecord st.headers) := by
    rw [hreq]
  refine ⟨?_, ?_, ?_⟩
  · intro rec hrec p hp
    rw [hrows] at hrec
    rcases List.mem_map.mp hrec with ⟨row, _, rfl⟩
    refine foldl_recordStep_keys (P := fun k => ∃ h ∈ st.headers, k = jsTrim h ∧ k ≠ "")
      _ [] (by intro p hp; cases hp) ?_ p hp
    intro q hq hne
    exact ⟨q.2, mem_of_mem_zip_range hq, rfl, hne⟩
  · intro hmem rec hrec
    rw [hrows] at hrec
    rcases List.mem_map.mp hrec with ⟨row, _, rfl⟩
    rcases List.mem_map.mp hmem with ⟨h, hh, hth⟩
    rcases mem_zip_range hh with ⟨q, hq, hq2⟩
    exact foldl_recordStep_hasKey _ [] ⟨q, hq, by rw [hq2]; exact hth⟩ (by decide)
  · intro hmem rec hrec
    rw [hrows] at hrec
    rcases List.mem_map.mp hrec with ⟨row, _, rfl⟩
    rcases List.mem_map.mp hmem with ⟨h, hh, hth⟩
    rcases mem_zip_range hh with ⟨q, hq, hq2⟩
    exact foldl_recordStep_hasKey _ [] ⟨q, hq, by rw [hq2]; exact hth⟩ (by decide)

/-- A table whose headers are already the exact lowercase column names. -/
def lowercaseState : TableState :=
  { headers := ["email", "recipient"], data := [["a@x.com", "Ana"]],
    selectedTemplateId := "t", emailSubject := "", ccInput := "",
    withAttachments := true }

/-- The requests `handleSend` issues for `lowercaseState`. -/
def lowercaseRequest : BulkRequest :=
  { uploadRows := [[("email", "a@x.com"), ("recipient", "Ana")]],
    withAttachments := true, skipSent := true, ccList := [],
    templateId := "t", subject := none }

theorem record_keys_are_trimmed_headers_witness :
    hasKey [("email", "a@x.com"), ("recipient", "Ana")] "email" = true :=
  (record_keys_are_trimmed_headers lowercaseState lowercaseRequest rfl).2.1
    (by decide) [("email", "a@x.com"), ("recipient", "Ana")] (by decide)

/-! ### The CC list (claim C8) -/

theorem splitCommas_cons_ne (c : Char) (rest : List Char) (h : ¬ c = ',') :
    splitCommas (c :: rest) =
      match splitCommas rest with
      | l :: ls => (c :: l) :: ls
      | [] => [[c]] := by
  conv_lhs => rw [splitCommas.eq_def]
  split
  · rename_i heq
    cases heq
  · rename_i heq
    injection heq with h1 _
    exact (h h1).elim
  · rename_i c' rest' _ heq
    injection heq with h1 h2
    rw [h1, h2]

theorem splitCommas_ne_nil : ∀ l : List Char, splitCommas l ≠ [] := by
  intro l
  induction l with
  | nil => simp [splitCommas]
  | cons c rest ih =>
    by_cases hc : c = ','
    · subst hc
      simp [splitCommas]
    · rw [splitCommas_cons_ne c rest hc]
      rcases hrec : splitCommas rest with _ | ⟨l', ls⟩
      · exact absurd hrec ih
      · simp

theorem splitCommas_eq_splitOn : ∀ l : List Char, splitCommas l = l.splitOn ',' := by
  intro l
  induction l with
  | nil => rfl
  | cons c rest ih =>
    by_cases hc : c = ','
    · subst hc
      show [] :: splitCommas rest = _
      rw [List.splitOn, List.splitOnP_cons]
      rw [if_pos (by simp)]
      rw [ih]
      rfl
    · rw [splitCommas_cons_ne c rest hc]
      rw [List.splitOn, List.splitOnP_cons, if_neg (by simpa using hc)]
      rcases hrec : splitCommas rest with _ | ⟨l', ls⟩
      · exact absurd hrec (splitCommas_ne_nil rest)
      · have : List.splitOnP (· == ',') rest = l' :: ls := by
          rw [← List.splitOn, ← ih, hrec]
        rw [this]
        rfl

theorem comma_not_mem_splitCommas :
    ∀ (l : List Char), ∀ p ∈ splitCommas l, ',' ∉ p := by
  intro l
  induction l with
  | nil =>
    intro p hp
    rw [List.mem_singleton.mp hp]
    simp
  | cons c rest ih =>
    intro p hp
    by_cases hc : c = ','
    · subst hc
      rcases List.mem_cons.mp hp with rfl | hp'
      · simp
      · exact ih p hp'
    · rw [splitCommas_cons_ne c rest hc] at hp
      rcases hrec : splitCommas rest with _ | ⟨l', ls⟩
      · exact absurd hrec (splitCommas_ne_nil rest)
      · rw [hrec] at hp
        rcases List.mem_cons.mp hp with rfl | hp'
        · intro hmem
          rcases List.mem_cons.mp hmem with heq | hmem'
          · exact hc heq.symm
          · exact ih l' (hrec ▸ List.mem_cons_self _ _) hmem'
        · exact ih p (hrec ▸ List.mem_cons_of_mem _ hp')

/-- C8: for a job that `handleSend` actually dispatches, the single
`cc_list` of the bulk payload is exactly the comma-separated components of
the CC input (the parts of `splitOn ','`, which reassemble to the input and
contain no comma), each trimmed, with empty components removed, in input
order.  The model carries one `ccList` per `BulkRequest`, i.e. one static
CC list for the whole run. -/
theorem cc_list_from_cc_input (st : TableState) (req : BulkRequest)
    (hok : handleSend st = .ok req) :
    req.ccList =
      (((st.ccInput.data.splitOn ',').map jsTrimList).filter
        (fun l => l ≠ [])).map String.mk ∧
    [','].intercalate (st.ccInput.data.splitOn ',') = st.ccInput.data ∧
    (∀ part ∈ st.ccInput.data.splitOn ',', ',' ∉ part) := by
  have hreq := ((handleSend_ok_iff st req).mp hok).2.2.2.2.2
  refine ⟨?_, List.intercalate_splitOn _ ',', ?_⟩
  · rw [hreq]
    show ccParse st.ccInput = _
    unfold ccParse
    rw [splitCommas_eq_splitOn]
  · intro part hpart
    exact comma_not_mem_splitCommas _ part
      ((splitCommas_eq_splitOn st.ccInput.data) ▸ hpart)

/-- A table state whose CC input mixes padding, empty components and two
addresses. -/
def ccState : TableState :=
  { headers := ["email", "recipient"], data := [["a@x.com", "Ana"]],
    selectedTemplateId := "t", emailSubject := "",
    ccInput := " a@x.com ,,b@y.com ,", withAttachments := true }

/-- The requests `handleSend` issues for `ccState`. -/
def ccRequest : BulkRequest :=
  { uploadRows := [[("email", "a@x.com"), ("recipient", "Ana")]],
    withAttachments := true, skipSent := true,
    ccList := ["a@x.com", "b@y.com"], templateId := "t", subject := none }

theorem cc_list_from_cc_input_witness :
    ccRequest.ccList =
      (((ccState.ccInput.data.splitOn ',').map jsTrimList).filter
        (fun l => l ≠ [])).map String.mk :=
  (cc_list_from_cc_input ccState ccRequest rfl).1

/-! ### The template GET endpoint (claim C9)

Model of `src/app/api/templates/[id]/route.ts`.  `sanitizeId` accepts
`string | string[] | undefined`; the route handler passes `params.id`
(a string).  Reading a file is modelled as the filename the handler would
pass to `readFile` inside `TEMPLATES_DIR` — the handler performs no other
filesystem access. -/

/-- The characters kept by `value.replace(/[^A-Za-z0-9_-]/g, '')`. -/
def isIdChar (c : Char) : Bool :=
  ('A' ≤ c ∧ c ≤ 'Z') ∨ ('a' ≤ c ∧ c ≤ 'z') ∨ ('0' ≤ c ∧ c ≤ '9') ∨
  c = '_' ∨ c = '-'

/-- Model of `sanitizeId` (route.ts:7).  `none` models `null`/`undefined`
inputs as well as the `null` result; `!id` is JS falsiness, which holds for
the empty string; an array contributes its first element (`undefined`, and
hence `null`, when empty). -/
def cleanId (s : String) : Option String :=
  if jsTrim (String.mk (s.data.filter isIdChar)) = "" then none
  else some (jsTrim (String.mk (s.data.filter isIdChar)))

def sanitizeId (id : Option (String ⊕ List String)) : Option String :=
  match id with
  | none => none
  | some (.inl s) => if s = "" then none else cleanId s
  | some (.inr l) =>
    match l.head? with
    | none => none
    | some s => cleanId s

/-- The observable outcome of the GET handler: a 400 response, or a read of
exactly one file (named by the sanitized id plus `.html`) inside the
templates directory. -/
inductive GetOutcome
  | badRequest
  | readTemplateFile (filename : String)
  deriving DecidableEq

/-- Model of `GET` (route.ts:15): 400 iff `sanitizeId` returns null,
otherwise read `${sanitizedId}.html` under `TEMPLATES_DIR`. -/
def templateGet (id : String) : GetOutcome :=
  match sanitizeId (some (.inl id)) with
  | none => .badRequest
  | some sid => .readTemplateFile (sid ++ ".html")

theorem cleanId_chars {v s : String} (h : cleanId v = some s) :
    s ≠ "" ∧ ∀ c ∈ s.data, isIdChar c = true := by
  unfold cleanId at h
  split at h
  · cases h
  · rename_i hne
    injection h with h
    subst h
    refine ⟨hne, ?_⟩
    intro c hc
    have hc' := mem_of_mem_jsTrimList hc
    exact (List.mem_filter.mp hc').2

theorem sanitizeId_chars {id : Option (String ⊕ List String)} {s : String}
    (h : sanitizeId id = some s) : s ≠ "" ∧ ∀ c ∈ s.data, isIdChar c = true := by
  rcases id with _ | ⟨v | l⟩
  · cases h
  · have h' : (if v = "" then none else cleanId v) = some s := h
    split at h'
    · cases h'
    · exact cleanId_chars h'
  · rcases l with _ | ⟨v, rest⟩
    · cases h
    · exact cleanId_chars h

/-- C9: `sanitizeId` returns `null` or a non-empty string of characters in
`[A-Za-z0-9_-]`; the GET route answers 400 exactly when it returns `null`,
and otherwise reads only the file named by the sanitized id plus `.html`
inside the templates directory — and since no path separator or dot
survives sanitization, that read cannot escape the directory. -/
theorem template_get_safe (id : String) :
    (templateGet id = .badRequest ↔ sanitizeId (some (.inl id)) = none) ∧
    (∀ s, sanitizeId (some (.inl id)) = some s →
      templateGet id = .readTemplateFile (s ++ ".html") ∧
      s ≠ "" ∧
      ∀ c ∈ s.data, isIdChar c = true ∧ c ≠ '/' ∧ c ≠ '\\' ∧ c ≠ '.') := by
  constructor
  · unfold templateGet
    rcases hs : sanitizeId (some (.inl id)) with _ | s
    · simp
    · simp
  · intro s hs
    refine ⟨by unfold templateGet; rw [hs], (sanitizeId_chars hs).1, ?_⟩
    intro c hc
    have hch := (sanitizeId_chars hs).2 c hc
    refine ⟨hch, ?_, ?_, ?_⟩ <;>
    · rintro rfl
      revert hch
      decide

theorem template_get_safe_witness :
    templateGet "welcome-email" = .readTemplateFile "welcome-email.html" :=
  ((template_get_safe "welcome-email").2 "welcome-email" (by decide)).1

/-! ### Template name normalization (claims C7, C3)

Model of the filename computation in `POST /api/templates`
(`TableEditor.tsx:711`):
`name.toLowerCase().replace(/[^a-z0-9]+/g, '-').replace(/^-|-$/g, '') + '.html'`. -/

def isLowerAlnum (c : Char) : Bool :=
  ('a' ≤ c ∧ c ≤ 'z') ∨ ('0' ≤ c ∧ c ≤ '9')

/-- One-pass scanner for `.replace(/[^a-z0-9]+/g, '-')`: `inRun` records
whether the scanner is inside a non-alphanumeric run whose `'-'` has
already been emitted. -/
def collapseAux : Bool → List Char → List Char
  | _, [] => []
  | inRun, c :: cs =>
    if isLowerAlnum c then c :: collapseAux false cs
    else if inRun then collapseAux true cs
    else '-' :: collapseAux true cs

/-- `.replace(/[^a-z0-9]+/g, '-')`: each maximal run of characters outside
`[a-z0-9]` becomes a single `'-'`. -/
def collapseRuns (l : List Char) : List Char := collapseAux false l

/-- `.replace(/^-|-$/g, '')` removes at most one leading `'-'` ... -/
def stripLeadDash : List Char → List Char
  | '-' :: rest => rest
  | l => l

/-- ... and at most one trailing `'-'` (after `collapseRuns` there is at most
one of each). -/
def stripTrailDash (l : List Char) : List Char :=
  if l.getLast? = some '-' then l.dropLast else l

def stripEdgeDashes (l : List Char) : List Char :=
  stripTrailDash (stripLeadDash l)

/-- The normalized template name stored by `POST /api/templates`. -/
def normalizeTemplateName (name : String) : String :=
  String.mk (stripEdgeDashes (collapseRuns (jsLower name).data))

/-- The stored filename: normalized name plus `.html`. -/
def templateFilename (name : String) : String :=
  normalizeTemplateName name ++ ".html"

/-- The maximal alphanumeric runs of a character list, in order. -/
def alnumRuns : List Char → List (List Char)
  | [] => []
  | c :: cs =>
    if isLowerAlnum c then
      (c :: cs.takeWhile isLowerAlnum) :: alnumRuns (cs.dropWhile isLowerAlnum)
    else alnumRuns (cs.dropWhile fun d => !isLowerAlnum d)
termination_by l => l.length
decreasing_by
  · simp_wf
    have h := (List.dropWhile_sublist (l := cs) (p := isLowerAlnum)).length_le
    omega
  · simp_wf
    have h := (List.dropWhile_sublist (l := cs) (p := fun d => !isLowerAlnum d)).length_le
    omega

/-- The claim's description of the normalization, stated independently of
the code's replace chain: lowercase the name and join its maximal
alphanumeric runs with single `'-'` separators (equivalently: replace each
non-alphanumeric run by one separator and strip the leading/trailing
separators). -/
def specNormalizeName (name : String) : String :=
  String.mk (List.intercalate ['-'] (alnumRuns (jsLower name).data))

theorem collapseAux_cons (inRun : Bool) (c : Char) (cs : List Char) :
    collapseAux inRun (c :: cs) =
      if isLowerAlnum c then c :: collapseAux false cs
      else if inRun then collapseAux true cs
      else '-' :: collapseAux true cs := rfl

theorem collapseAux_true (cs : List Char) :
    collapseAux true cs = collapseAux false (cs.dropWhile fun d => !isLowerAlnum d) := by
  induction cs with
  | nil => rfl
  | cons c cs ih =>
    by_cases hc : isLowerAlnum c = true
    · rw [List.dropWhile_cons_of_neg (by simp [hc]), collapseAux_cons,
          collapseAux_cons, if_pos hc, if_pos hc]
    · replace hc : isLowerAlnum c = false := Bool.eq_false_iff.mpr hc
      rw [List.dropWhile_cons_of_pos (by simp [hc]), collapseAux_cons,
          if_neg (by simp [hc]), if_pos rfl, ih]

theorem collapseRuns_cons (c : Char) (cs : List Char) :
    collapseRuns (c :: cs) =
      if isLowerAlnum c then c :: collapseRuns cs
      else '-' :: collapseRuns (cs.dropWhile fun d => !isLowerAlnum d) := by
  unfold collapseRuns
  rw [collapseAux_cons]
  by_cases hc : isLowerAlnum c = true
  · rw [if_pos hc, if_pos hc]
  · replace hc : isLowerAlnum c = false := Bool.eq_false_iff.mpr hc
    rw [if_neg (by simp [hc]), if_neg (by simp [hc]), collapseAux_true]
    rw [if_neg (by simp [hc])]

theorem alnumRuns_cons (c : Char) (cs : List Char) :
    alnumRuns (c :: cs) =
      if isLowerAlnum c then
        (c :: cs.takeWhile isLowerAlnum) :: alnumRuns (cs.dropWhile isLowerAlnum)
      else alnumRuns (cs.dropWhile fun d => !isLowerAlnum d) := by
  rw [alnumRuns]

theorem isLowerAlnum_ne_dash {c : Char} (h : isLowerAlnum c = true) : c ≠ '-' := by
  rintro rfl
  exact absurd h (by decide)

theorem intercalate_cons₂ (s x y : List Char) (zs : List (List Char)) :
    List.intercalate s (x :: y :: zs) = x ++ s ++ List.intercalate s (y :: zs) := by
  simp [List.intercalate, List.intersperse_cons_cons]

theorem intercalate_single (s x : List Char) : List.intercalate s [x] = x := by
  simp [List.intercalate]

theorem dropWhile_head_false {p : Char → Bool} :
    ∀ {cs t : List Char} {c : Char}, cs.dropWhile p = c :: t → p c = false := by
  intro cs
  induction cs with
  | nil => intro t c h; simp at h
  | cons a as ih =>
    intro t c h
    rw [List.dropWhile_cons] at h
    split at h
    · exact ih h
    · rename_i hpa
      injection h with h1 _
      subst h1
      exact Bool.not_eq_true _ ▸ Bool.of_not_eq_true hpa

theorem collapseRuns_alnum_prefix :
    ∀ {w : List Char} (cs : List Char), (∀ x ∈ w, isLowerAlnum x = true) →
      collapseRuns (w ++ cs) = w ++ collapseRuns cs := by
  intro w
  induction w with
  | nil => intro cs _; rfl
  | cons a w' ih =>
    intro cs hall
    rw [List.cons_append, collapseRuns_cons,
        if_pos (hall a (List.mem_cons_self _ _)),
        ih cs fun x hx => hall x (List.mem_cons_of_mem _ hx), List.cons_append]

theorem stripLeadDash_dash (X : List Char) : stripLeadDash ('-' :: X) = X := rfl

theorem stripLeadDash_of_ne {c : Char} (X : List Char) (h : c ≠ '-') :
    stripLeadDash (c :: X) = c :: X := by
  unfold stripLeadDash
  split
  · rename_i heq
    injection heq with h1 _
    exact absurd h1 h
  · rfl

theorem stripTrailDash_nil : stripTrailDash [] = [] := by
  simp [stripTrailDash]

theorem stripTrailDash_no_dash {l : List Char} (h : ∀ x ∈ l, x ≠ '-') :
    stripTrailDash l = l := by
  unfold stripTrailDash
  rcases hl : l.getLast? with _ | a
  · simp
  · rw [if_neg]
    intro hcontra
    injection hcontra with h1
    exact h a (List.mem_of_mem_getLast? hl) h1

theorem stripTrailDash_concat_dash (w : List Char) :
    stripTrailDash (w ++ ['-']) = w := by
  unfold stripTrailDash
  rw [List.getLast?_append_of_ne_nil w (by simp)]
  rw [show (['-'] : List Char).getLast? = some '-' from rfl, if_pos rfl, List.dropLast_concat]

theorem stripTrailDash_append (w : List Char) {X : List Char} (hX : X ≠ []) :
    stripTrailDash (w ++ X) = w ++ stripTrailDash X := by
  unfold stripTrailDash
  rw [List.getLast?_append_of_ne_nil w hX]
  split
  · exact List.dropLast_append_of_ne_nil w hX
  · rfl

theorem collapseRuns_nil : collapseRuns [] = [] := rfl

theorem alnumRuns_nil : alnumRuns [] = [] := by rw [alnumRuns]

theorem intercalate_nil (s : List Char) :
    List.intercalate s ([] : List (List Char)) = [] := by
  simp [List.intercalate]

theorem collapseRuns_split (cs : List Char) :
    collapseRuns cs =
      cs.takeWhile isLowerAlnum ++ collapseRuns (cs.dropWhile isLowerAlnum) := by
  conv_lhs => rw [← List.takeWhile_append_dropWhile isLowerAlnum cs]
  exact collapseRuns_alnum_prefix _ fun x hx => List.mem_takeWhile_imp hx

theorem stripEdge_collapse :
    ∀ (l : List Char), stripEdgeDashes (collapseRuns l) =
      List.intercalate ['-'] (alnumRuns l) := by
  suffices H : ∀ (n : Nat) (l : List Char), l.length ≤ n →
      stripEdgeDashes (collapseRuns l) = List.intercalate ['-'] (alnumRuns l) by
    intro l; exact H l.length l le_rfl
  intro n
  induction n with
  | zero =>
    intro l hl
    rw [List.length_eq_zero.mp (Nat.le_zero.mp hl), collapseRuns_nil,
        alnumRuns_nil, intercalate_nil]
    rfl
  | succ n ihn =>
    intro l hl
    rcases l with _ | ⟨c, cs⟩
    · rw [collapseRuns_nil, alnumRuns_nil, intercalate_nil]; rfl
    · by_cases hc : isLowerAlnum c = true
      · -- the head starts an alphanumeric run
        rw [collapseRuns_cons, if_pos hc, alnumRuns_cons, if_pos hc,
            collapseRuns_split cs]
        have halt : ∀ x ∈ cs.takeWhile isLowerAlnum, isLowerAlnum x = true :=
          fun x hx => List.mem_takeWhile_imp hx
        unfold stripEdgeDashes
        rw [stripLeadDash_of_ne _ (isLowerAlnum_ne_dash hc)]
        rcases hd : cs.dropWhile isLowerAlnum with _ | ⟨e, es⟩
        · rw [collapseRuns_nil, List.append_nil, alnumRuns_nil,
              intercalate_single]
          refine stripTrailDash_no_dash ?_
          intro x hx
          rcases List.mem_cons.mp hx with rfl | hx'
          · exact isLowerAlnum_ne_dash hc
          · exact isLowerAlnum_ne_dash (halt x hx')
        · have he : isLowerAlnum e = false := dropWhile_head_false hd
          rw [collapseRuns_cons, if_neg (by simp [he]),
              alnumRuns_cons, if_neg (by simp [he])]
          have hlen1 : (e :: es).length ≤ cs.length := by
            rw [← hd]
            exact (List.dropWhile_sublist (l := cs) (p := isLowerAlnum)).length_le
          rcases hes : es.dropWhile (fun d => !isLowerAlnum d) with _ | ⟨f, fs⟩
          · rw [collapseRuns_nil, alnumRuns_nil, intercalate_single]
            have hre : c :: (cs.takeWhile isLowerAlnum ++ '-' :: ([] : List Char)) =
                (c :: cs.takeWhile isLowerAlnum) ++ ['-'] := by simp
            rw [hre, stripTrailDash_concat_dash]
          · have hf : isLowerAlnum f = true := by
              simpa using dropWhile_head_false hes
            have hruns : alnumRuns (f :: fs) =
                (f :: fs.takeWhile isLowerAlnum) ::
                  alnumRuns (fs.dropWhile isLowerAlnum) := by
              rw [alnumRuns_cons, if_pos hf]
            rw [hruns, intercalate_cons₂, ← hruns]
            have hX : collapseRuns (f :: fs) ≠ [] := by
              rw [collapseRuns_cons, if_pos hf]; simp
            have hre : c :: (cs.takeWhile isLowerAlnum ++
                  '-' :: collapseRuns (f :: fs)) =
                ((c :: cs.takeWhile isLowerAlnum) ++ ['-']) ++
                  collapseRuns (f :: fs) := by simp
            rw [hre, stripTrailDash_append _ hX]
            have hstrip : stripLeadDash (collapseRuns (f :: fs)) =
                collapseRuns (f :: fs) := by
              rw [collapseRuns_cons, if_pos hf]
              exact stripLeadDash_of_ne _ (isLowerAlnum_ne_dash hf)
            have hlen2 : (f :: fs).length ≤ es.length := by
              rw [← hes]
              exact (List.dropWhile_sublist (l := es)
                (p := fun d => !isLowerAlnum d)).length_le
            have hlen : (f :: fs).length ≤ n := by
              simp only [List.length_cons] at hl hlen1 hlen2 ⊢
              omega
            have hrec := ihn (f :: fs) hlen
            unfold stripEdgeDashes at hrec
            rw [hstrip] at hrec
            rw [hrec]
      · -- the head starts a non-alphanumeric run
        replace hc : isLowerAlnum c = false := by
          rcases Bool.eq_false_or_eq_true (isLowerAlnum c) with h | h
          · exact absurd h hc
          · exact h
        rw [collapseRuns_cons, if_neg (by simp [hc]),
            alnumRuns_cons, if_neg (by simp [hc])]
        unfold stripEdgeDashes
        rw [stripLeadDash_dash]
        rcases hcs : cs.dropWhile (fun d => !isLowerAlnum d) with _ | ⟨f, fs⟩
        · rw [collapseRuns_nil, alnumRuns_nil, stripTrailDash_nil,
              intercalate_nil]
        · have hf : isLowerAlnum f = true := by
            simpa using dropWhile_head_false hcs
          have hstrip : stripLeadDash (collapseRuns (f :: fs)) =
              collapseRuns (f :: fs) := by
            rw [collapseRuns_cons, if_pos hf]
            exact stripLeadDash_of_ne _ (isLowerAlnum_ne_dash hf)
          have hlen1 : (f :: fs).length ≤ cs.length := by
            rw [← hcs]
            exact (List.dropWhile_sublist (l := cs)
              (p := fun d => !isLowerAlnum d)).length_le
          have hlen : (f :: fs).length ≤ n := by
            simp only [List.length_cons] at hl hlen1 ⊢
            omega
          have hrec := ihn (f :: fs) hlen
          unfold stripEdgeDashes at hrec
          rw [hstrip] at hrec
          rw [hrec]

/-- C7: the name normalization of `POST /api/templates` maps every input
name to its lowercased form with each non-alphanumeric run replaced by a
single `'-'` and the leading/trailing separators stripped — equivalently,
the maximal alphanumeric runs of the lowercased name joined by `'-'`
(`specNormalizeName`) — and the stored filename is exactly that normalized
name followed by `.html`. -/
theorem template_filename_normalization (name : String) :
    normalizeTemplateName name = specNormalizeName name ∧
    templateFilename name = specNormalizeName name ++ ".html" := by
  have h := stripEdge_collapse (jsLower name).data
  constructor
  · unfold normalizeTemplateName specNormalizeName
    rw [h]
  · unfold templateFilename normalizeTemplateName specNormalizeName
    rw [h]

/-! ### Template update as delete-then-recreate (claim C3)

`autoSaveCurrentTemplate` (TemplateEditor.tsx:125) and `renameTemplate`
(TemplateEditor.tsx:301) update a stored template by first issuing
`DELETE /api/templates?filename=...` and only then `POST /api/templates`.
We model the template directory as an ordered association of filenames to
contents and the update as the sequence of storage states it visits. -/

/-- `fs.readFile`-style lookup in the modelled directory. -/
def lookupFile (s : List (String × String)) (name : String) : Option String :=
  (s.find? fun p => p.1 == name).map (·.2)

/-- `DELETE /api/templates` unlinks the named file. -/
def deleteFile (s : List (String × String)) (name : String) : List (String × String) :=
  s.filter fun p => p.1 != name

/-- The HTML content stored by `POST /api/templates`: the message itself
when it already starts (after trimming) with `<!DOCTYPE` or `<html`,
otherwise the boilerplate document with the subject as `<title>` and the
message in a `<pre>` block. -/
def postContent (subject message : String) : String :=
  if (jsTrim message).startsWith "<!DOCTYPE" ∨ (jsTrim message).startsWith "<html" then
    message
  else
    "<!DOCTYPE html>\n<html>\n    <head>\n        <meta charset=\"UTF-8\">\n        <title>"
      ++ subject ++
      "</title>\n        <meta name=\"viewport\" content=\"width=device-width, initial-scale=1.0\">\n    </head>\n    <body>\n        <pre style=\"font-family: sans-serif; white-space: pre-wrap;\">"
      ++ message ++
      "</pre>\n    </body>\n</html>"

/-- The storage states visited by the autosave/rename update: the initial
state, the state after the DELETE, and the state after the POST
(`writeFile` overwrites, hence `upsert`). -/
def updateTrace (s0 : List (String × String))
    (oldFilename name subject message : String) :
    List (List (String × String)) :=
  [s0,
   deleteFile s0 oldFilename,
   upsert (deleteFile s0 oldFilename) (templateFilename name)
     (postContent subject message)]

theorem lookupFile_deleteFile (s : List (String × String)) (name : String) :
    lookupFile (deleteFile s name) name = none := by
  unfold lookupFile deleteFile
  rw [List.find?_eq_none.mpr, Option.map_none']
  intro p hp hpk
  have := List.of_mem_filter hp
  simp only [bne_iff_ne, ne_eq] at this
  exact this (eq_of_beq hpk)

theorem find?_upsert_self (s : List (String × String)) (k v : String) :
    (upsert s k v).find? (fun p => p.1 == k) = some (k, v) := by
  unfold upsert
  split
  · rename_i hany
    unfold hasKey at hany
    induction s with
    | nil => cases hany
    | cons p s' ih =>
      by_cases hp : (p.1 == k) = true
      · rw [List.map_cons, if_pos hp]
        rw [List.find?_cons_of_pos (p := fun q : String × String => q.1 == k) _ (by simp)]
      · rw [List.any_cons] at hany
        rw [List.map_cons, if_neg hp,
            List.find?_cons_of_neg (p := fun q : String × String => q.1 == k) _ hp]
        exact ih (by simpa [hp] using hany)
  · rename_i hany
    unfold hasKey at hany
    have hall : ∀ p ∈ s, ¬ (p.1 == k) = true :=
      List.any_eq_false.mp (Bool.eq_false_iff.mpr hany)
    induction s with
    | nil => rw [List.nil_append, List.find?_cons_of_pos (p := fun q : String × String => q.1 == k) _ (by simp)]
    | cons p s' ih =>
      rw [List.cons_append,
          List.find?_cons_of_neg (p := fun q : String × String => q.1 == k) _ (hall p (List.mem_cons_self _ _))]
      exact ih
        (by
          intro hcontra
          rcases List.any_eq_true.mp hcontra with ⟨q, hq, hqk⟩
          exact hall q (List.mem_cons_of_mem _ hq) hqk)
        (fun q hq => hall q (List.mem_cons_of_mem _ hq))

theorem lookupFile_upsert_self (s : List (String × String)) (k v : String) :
    lookupFile (upsert s k v) k = some v := by
  unfold lookupFile
  rw [find?_upsert_self]
  rfl

/-- The storage containing only the template about to be autosaved. -/
def welcomeStore : List (String × String) := [("welcome.html", "old content")]

/-- C3 counterexample: autosaving the template stored as `welcome.html`
(name `welcome`, so the new filename equals the old one) passes through the
intermediate state after the DELETE in which the store is empty — the
template is missing under both the old and the new filename, so the update
is not an atomic replace. -/
theorem template_update_not_atomic_counterexample :
    (updateTrace welcomeStore "welcome.html" "welcome" "Hi" "new").get? 1 = some [] ∧
    ¬ (∀ st ∈ updateTrace welcomeStore "welcome.html" "welcome" "Hi" "new",
        lookupFile st "welcome.html" ≠ none ∨
        lookupFile st (templateFilename "welcome") ≠ none) :=
  ⟨rfl, by decide⟩

/-- C3 (amended): the template update is delete-then-recreate, not an
atomic replace: the trace visits the post-DELETE state, in which the old
filename no longer resolves (and, when the normalized name maps back to the
same filename, the template is missing entirely); only the final state
holds the newly posted content. -/
theorem template_update_delete_then_recreate
    (s0 : List (String × String)) (oldFilename name subject message : String) :
    updateTrace s0 oldFilename name subject message =
      [s0, deleteFile s0 oldFilename,
       upsert (deleteFile s0 oldFilename) (templateFilename name)
         (postContent subject message)] ∧
    lookupFile (deleteFile s0 oldFilename) oldFilename = none ∧
    lookupFile
      (upsert (deleteFile s0 oldFilename) (templateFilename name)
        (postContent subject message))
      (templateFilename name) = some (postContent subject message) ∧
    (templateFilename name = oldFilename →
      lookupFile (deleteFile s0 oldFilename) (templateFilename name) = none) := by
  refine ⟨rfl, lookupFile_deleteFile s0 oldFilename, lookupFile_upsert_self _ _ _, ?_⟩
  intro heq
  rw [heq]
  exact lookupFile_deleteFile s0 oldFilename

theorem template_update_delete_then_recreate_witness :
    lookupFile (deleteFile welcomeStore "welcome.html") "welcome.html" = none ∧
    lookupFile (deleteFile welcomeStore "welcome.html")
      (templateFilename "welcome") = none :=
  ⟨(template_update_delete_then_recreate welcomeStore "welcome.html" "welcome"
      "Hi" "new").2.1,
   (template_update_delete_then_recreate welcomeStore "welcome.html" "welcome"
      "Hi" "new").2.2.2 (by decide)⟩

/-! ### Jinja export of template placeholders (claim C6)

`exportJinjaTemplate` (TemplateEditor.tsx:1197) rewrites the subject and
message with `.replace(/\{\{(\w+)\}\}/g, '\x7b\x7b $1 \x7d\x7d')`.  We model the
global regex replace as a left-to-right scan: at `\x7b\x7b`, greedily take word
characters and require `\x7d\x7d`; on success emit the spaced form and continue
after the match, otherwise advance one character (as the regex engine
does). -/

/-- `\w` of the regex: `[A-Za-z0-9_]`. -/
def isWordChar (c : Char) : Bool :=
  ('A' ≤ c ∧ c ≤ 'Z') ∨ ('a' ≤ c ∧ c ≤ 'z') ∨ ('0' ≤ c ∧ c ≤ '9') ∨ c = '_'

/-- Attempt `(\w+)\}\}` right after an opening `\x7b\x7b`: the captured word and
the remainder after the closing braces, or `none`. -/
def matchPlaceholder (rest : List Char) : Option (List Char × List Char) :=
  match rest.drop (rest.takeWhile isWordChar).length with
  | '\x7d' :: '\x7d' :: after =>
    if (rest.takeWhile isWordChar).isEmpty then none
    else some (rest.takeWhile isWordChar, after)
  | _ => none

theorem drop_length_takeWhile (p : Char → Bool) :
    ∀ l : List Char, l.drop (l.takeWhile p).length = l.dropWhile p := by
  intro l
  induction l with
  | nil => rfl
  | cons c cs ih =>
    by_cases hc : p c = true
    · rw [List.takeWhile_cons_of_pos hc, List.dropWhile_cons_of_pos hc,
          List.length_cons, List.drop_succ_cons, ih]
    · replace hc : p c = false := Bool.eq_false_iff.mpr hc
      rw [List.takeWhile_cons_of_neg (by simp [hc]),
          List.dropWhile_cons_of_neg (by simp [hc])]
      rfl

theorem matchPlaceholder_some {rest w after : List Char}
    (h : matchPlaceholder rest = some (w, after)) :
    rest = w ++ '\x7d' :: '\x7d' :: after ∧ w ≠ [] ∧
    after.length + 2 ≤ rest.length := by
  unfold matchPlaceholder at h
  rw [drop_length_takeWhile] at h
  split at h
  · rename_i after' heq
    split at h
    · cases h
    · rename_i hne
      injection h with h1
      injection h1 with hw hafter
      have hre : rest = w ++ '\x7d' :: '\x7d' :: after := by
        rw [← hw, ← hafter]
        conv_lhs => rw [← List.takeWhile_append_dropWhile isWordChar rest]
        rw [heq]
      refine ⟨hre, ?_, ?_⟩
      · rw [← hw]
        simpa [List.isEmpty_iff] using hne
      · rw [hre]
        simp [List.length_append]
  · cases h

/-- The global replace `\{\{(\w+)\}\}` with the spaced Jinja form: scan
left to right; at a `\x7b\x7b`, rewrite when a word plus `\x7d\x7d` follows, else
advance one character and retry (the regex engine's behaviour). -/
def jinjaRewrite : List Char → List Char
  | [] => []
  | '\x7b' :: '\x7b' :: rest =>
    match h : matchPlaceholder rest with
    | some (w, after) =>
      '\x7b' :: '\x7b' :: ' ' :: (w ++ ' ' :: '\x7d' :: '\x7d' :: jinjaRewrite after)
    | none => '\x7b' :: jinjaRewrite ('\x7b' :: rest)
  | c :: rest => c :: jinjaRewrite rest
termination_by l => l.length
decreasing_by
  · have := (matchPlaceholder_some h).2.2
    simp only [List.length_cons]
    omega
  · simp only [List.length_cons]
    omega
  · simp only [List.length_cons]
    omega

theorem jinjaRewrite_nil : jinjaRewrite [] = [] := by
  rw [jinjaRewrite]

theorem jinjaRewrite_open_some {rest w after : List Char}
    (h : matchPlaceholder rest = some (w, after)) :
    jinjaRewrite ('\x7b' :: '\x7b' :: rest) =
      '\x7b' :: '\x7b' :: ' ' :: (w ++ ' ' :: '\x7d' :: '\x7d' :: jinjaRewrite after) := by
  rw [jinjaRewrite]
  split
  · rename_i w' after' heq
    rw [heq] at h
    injection h with h1
    injection h1 with hw hafter
    rw [hw, hafter]
  · rename_i heq
    rw [heq] at h
    cases h

theorem jinjaRewrite_open_none {rest : List Char}
    (h : matchPlaceholder rest = none) :
    jinjaRewrite ('\x7b' :: '\x7b' :: rest) = '\x7b' :: jinjaRewrite ('\x7b' :: rest) := by
  rw [jinjaRewrite]
  split
  · rename_i w' after' heq
    rw [heq] at h
    cases h
  · rfl

theorem jinjaRewrite_cons_ne {c : Char} (rest : List Char) (hc : c ≠ '\x7b') :
    jinjaRewrite (c :: rest) = c :: jinjaRewrite rest := by
  rw [jinjaRewrite.eq_def]
  split
  · rename_i heq
    cases heq
  · rename_i heq
    injection heq with h1 _
    exact absurd h1 hc
  · rename_i a as hx heq2
    injection heq2 with h1 h2
    rw [← h1, ← h2]

theorem jinjaRewrite_brace_cons {c : Char} (rest : List Char) (hc : c ≠ '\x7b') :
    jinjaRewrite ('\x7b' :: c :: rest) = '\x7b' :: jinjaRewrite (c :: rest) := by
  rw [jinjaRewrite.eq_def]
  split
  · rename_i heq
    cases heq
  · rename_i heq
    injection heq with _ h2
    injection h2 with h2 _
    exact absurd h2 hc
  · rename_i a as hx heq2
    injection heq2 with h1 h2
    rw [← h1, ← h2]

/-- A segment with no opening brace passes through the rewrite verbatim. -/
theorem jinjaRewrite_no_brace :
    ∀ {l : List Char}, (∀ c ∈ l, c ≠ '\x7b') → jinjaRewrite l = l := by
  intro l
  induction l with
  | nil => intro _; exact jinjaRewrite_nil
  | cons c rest ih =>
    intro hall
    rw [jinjaRewrite_cons_ne rest (hall c (List.mem_cons_self _ _)),
        ih fun x hx => hall x (List.mem_cons_of_mem _ hx)]

theorem takeWhile_append_all {p : Char → Bool} :
    ∀ {w : List Char} (x : List Char), (∀ c ∈ w, p c = true) →
      List.takeWhile p (w ++ x) = w ++ List.takeWhile p x := by
  intro w
  induction w with
  | nil => intro x _; rfl
  | cons a w' ih =>
    intro x hall
    rw [List.cons_append, List.takeWhile_cons_of_pos (hall a (List.mem_cons_self _ _)),
        ih x fun c hc => hall c (List.mem_cons_of_mem _ hc), List.cons_append]

/-- The regex does match a whitespace-free placeholder body. -/
theorem matchPlaceholder_complete {w : List Char} (t : List Char)
    (hw : w ≠ []) (hall : ∀ c ∈ w, isWordChar c = true) :
    matchPlaceholder (w ++ '\x7d' :: '\x7d' :: t) = some (w, t) := by
  have htake : List.takeWhile isWordChar (w ++ '\x7d' :: '\x7d' :: t) = w := by
    rw [takeWhile_append_all _ hall, List.takeWhile_cons_of_neg (by decide),
        List.append_nil]
  unfold matchPlaceholder
  rw [drop_length_takeWhile, htake]
  have hdrop : List.dropWhile isWordChar (w ++ '\x7d' :: '\x7d' :: t) =
      '\x7d' :: '\x7d' :: t := by
    have := List.takeWhile_append_dropWhile isWordChar (w ++ '\x7d' :: '\x7d' :: t)
    rw [htake] at this
    exact List.append_cancel_left this
  rw [hdrop]
  show (if w.isEmpty = true then none else some (w, t)) = some (w, t)
  rw [if_neg (by simpa [List.isEmpty_iff] using hw)]

/-- A space directly after `\x7b\x7b` defeats the match. -/
theorem matchPlaceholder_space (rest : List Char) :
    matchPlaceholder (' ' :: rest) = none := by
  unfold matchPlaceholder
  rw [drop_length_takeWhile, List.dropWhile_cons_of_neg (by decide)]
  rfl

/-- C6 counterexample: a placeholder written with a space inside the
braces, `"\x7b\x7b name\x7d\x7d"`, is NOT matched by
`.replace(/\{\{(\w+)\}\}/g, ...)`: it passes through unchanged, while
`"\x7b\x7bname\x7d\x7d"` is rewritten to the spaced form — so surrounding
whitespace inside the braces is not tolerated and the two spellings are not
recognized the same. -/
theorem jinja_whitespace_counterexample :
    jinjaRewrite ("\x7b\x7b name\x7d\x7d".data) = "\x7b\x7b name\x7d\x7d".data ∧
    jinjaRewrite ("\x7b\x7bname\x7d\x7d".data) = "\x7b\x7b name \x7d\x7d".data ∧
    jinjaRewrite ("\x7b\x7b name\x7d\x7d".data) ≠
      jinjaRewrite ("\x7b\x7bname\x7d\x7d".data) := by
  have h1 : jinjaRewrite ("\x7b\x7b name\x7d\x7d".data) = "\x7b\x7b name\x7d\x7d".data := by
    show jinjaRewrite ('\x7b' :: '\x7b' :: (' ' :: "name\x7d\x7d".data)) = _
    rw [jinjaRewrite_open_none (by decide),
        jinjaRewrite_brace_cons _ (by decide),
        jinjaRewrite_no_brace (by decide)]
  have h2 : jinjaRewrite ("\x7b\x7bname\x7d\x7d".data) = "\x7b\x7b name \x7d\x7d".data := by
    show jinjaRewrite ('\x7b' :: '\x7b' :: ("name".data ++ '\x7d' :: '\x7d' :: [])) = _
    rw [jinjaRewrite_open_some (matchPlaceholder_complete [] (by decide) (by decide)),
        jinjaRewrite_nil]
    decide
  exact ⟨h1, h2, by rw [h1, h2]; decide⟩

/-- C6 (amended): `exportJinjaTemplate`'s rewrite recognizes exactly the
placeholders `\x7b\x7bw\x7d\x7d` with `w` matching `[A-Za-z0-9_]+` and NO whitespace
inside the braces, replacing them by the spaced Jinja form; a placeholder
whose braces enclose leading whitespace is not recognized — the `\x7b\x7b` and
the space pass through unchanged and scanning resumes after them. -/
theorem jinja_placeholders_no_whitespace (w t rest : List Char)
    (hw : w ≠ []) (hall : ∀ c ∈ w, isWordChar c = true) :
    jinjaRewrite ('\x7b' :: '\x7b' :: (w ++ '\x7d' :: '\x7d' :: t)) =
      '\x7b' :: '\x7b' :: ' ' :: (w ++ ' ' :: '\x7d' :: '\x7d' :: jinjaRewrite t) ∧
    jinjaRewrite ('\x7b' :: '\x7b' :: ' ' :: rest) =
      '\x7b' :: '\x7b' :: ' ' :: jinjaRewrite rest := by
  constructor
  · exact jinjaRewrite_open_some (matchPlaceholder_complete t hw hall)
  · rw [jinjaRewrite_open_none (matchPlaceholder_space rest),
        jinjaRewrite_brace_cons _ (by decide),
        jinjaRewrite_cons_ne rest (by decide)]

theorem jinja_placeholders_no_whitespace_witness :
    jinjaRewrite ("\x7b\x7brecipient\x7d\x7d".data) = "\x7b\x7b recipient \x7d\x7d".data := by
  have h := (jinja_placeholders_no_whitespace ("recipient".data) [] []
    (by decide) (by decide)).1
  rw [jinjaRewrite_nil] at h
  exact h

/-! ### CSV parsing and export (claim C10)

Models of `parseCSV` (TableEditor.tsx:18) and the `quote`/join logic of
`exportCSV` (TableEditor.tsx:210). -/

/-- The inner character loop of `parseCSV`: `cur` is the cell accumulated
so far (`cur += ch`), the `Bool` is the `inQuotes` flag; at the end of the
line the current cell is pushed. -/
def parseLineAux : Bool → List Char → List Char → List (List Char)
  | _, cur, [] => [cur]
  | true, cur, '\"' :: '\"' :: rest2 => parseLineAux true (cur ++ ['\"']) rest2
  | true, cur, '\"' :: rest => parseLineAux false cur rest
  | false, cur, '\"' :: rest => parseLineAux true cur rest
  | true, cur, ',' :: rest => parseLineAux true (cur ++ [',']) rest
  | false, cur, ',' :: rest => cur :: parseLineAux false [] rest
  | inQ, cur, c :: rest => parseLineAux inQ (cur ++ [c]) rest

def parseLine (line : List Char) : List (List Char) :=
  parseLineAux false [] line

/-- `text.split(/\r?\n/)`: cut at `\n`, consuming one `\r` directly before
it; a lone `\r` is ordinary content. -/
def splitLines : List Char → List (List Char)
  | [] => [[]]
  | '\r' :: '\n' :: rest => [] :: splitLines rest
  | '\n' :: rest => [] :: splitLines rest
  | c :: rest =>
    match splitLines rest with
    | l :: ls => (c :: l) :: ls
    | [] => [[c]]

/-- `parseCSV`: split into lines, drop the lines that are blank after
trimming, parse each remaining line. -/
def parseCSV (text : List Char) : List (List (List Char)) :=
  ((splitLines text).filter fun l => jsTrimList l ≠ []).map parseLine

/-- `s.replace(/"/g, '""')`. -/
def escapeQuotes : List Char → List Char
  | [] => []
  | '\"' :: rest => '\"' :: '\"' :: escapeQuotes rest
  | c :: rest => c :: escapeQuotes rest

/-- The `quote` helper of `exportCSV`. -/
def quoteCell (s : List Char) : List Char :=
  if '\"' ∈ s then '\"' :: (escapeQuotes s ++ ['\"'])
  else if ',' ∈ s ∨ '\n' ∈ s ∨ '\r' ∈ s then '\"' :: (s ++ ['\"'])
  else s

/-- One exported line: quoted cells joined by `','`. -/
def exportLine (row : List (List Char)) : List Char :=
  List.intercalate [','] (row.map quoteCell)

/-- `exportCSV`: exported lines joined by `"\r\n"`. -/
def exportCSV (rows : List (List (List Char))) : List Char :=
  List.intercalate ['\r', '\n'] (rows.map exportLine)

theorem pla_nil (inQ : Bool) (cur : List Char) :
    parseLineAux inQ cur [] = [cur] := by
  cases inQ <;> rfl

theorem pla_esc (cur rest : List Char) :
    parseLineAux true cur ('\"' :: '\"' :: rest) =
      parseLineAux true (cur ++ ['\"']) rest := rfl

theorem pla_close_nil (cur : List Char) :
    parseLineAux true cur ['\"'] = [cur] := rfl

theorem pla_close (cur : List Char) {c : Char} (rest : List Char) (h : c ≠ '\"') :
    parseLineAux true cur ('\"' :: c :: rest) =
      parseLineAux false cur (c :: rest) := by
  rw [parseLineAux.eq_def]
  split <;> try simp_all
  rename_i heq hx1 hx2
  exact absurd heq.1.symm hx1

theorem pla_open (cur rest : List Char) :
    parseLineAux false cur ('\"' :: rest) = parseLineAux true cur rest := rfl

theorem pla_comma_inq (cur rest : List Char) :
    parseLineAux true cur (',' :: rest) =
      parseLineAux true (cur ++ [',']) rest := rfl

theorem pla_comma (cur rest : List Char) :
    parseLineAux false cur (',' :: rest) =
      cur :: parseLineAux false [] rest := rfl

theorem pla_other (inQ : Bool) (cur : List Char) {c : Char} (rest : List Char)
    (h1 : c ≠ '\"') (h2 : c ≠ ',') :
    parseLineAux inQ cur (c :: rest) = parseLineAux inQ (cur ++ [c]) rest := by
  rw [parseLineAux.eq_def]
  split <;> simp_all

theorem escapeQuotes_cons_ne {c : Char} (s : List Char) (h : c ≠ '\"') :
    escapeQuotes (c :: s) = c :: escapeQuotes s := by
  rw [escapeQuotes.eq_def]
  split <;> simp_all

theorem mem_escapeQuotes {c : Char} : ∀ {s : List Char}, c ∈ escapeQuotes s → c ∈ s := by
  intro s
  induction s with
  | nil => intro h; cases h
  | cons a s' ih =>
    intro h
    by_cases ha : a = '\"'
    · subst ha
      rw [show escapeQuotes ('\"' :: s') = '\"' :: '\"' :: escapeQuotes s' from rfl] at h
      rcases List.mem_cons.mp h with rfl | h'
      · exact List.mem_cons_self _ _
      · rcases List.mem_cons.mp h' with rfl | h''
        · exact List.mem_cons_self _ _
        · exact List.mem_cons_of_mem _ (ih h'')
    · rw [escapeQuotes_cons_ne s' ha] at h
      rcases List.mem_cons.mp h with rfl | h'
      · exact List.mem_cons_self _ _
      · exact List.mem_cons_of_mem _ (ih h')

theorem mem_escapeQuotes_of_mem {c : Char} : ∀ {s : List Char}, c ∈ s → c ∈ escapeQuotes s := by
  intro s
  induction s with
  | nil => intro h; cases h
  | cons a s' ih =>
    intro h
    by_cases ha : a = '\"'
    · subst ha
      rw [show escapeQuotes ('\"' :: s') = '\"' :: '\"' :: escapeQuotes s' from rfl]
      rcases List.mem_cons.mp h with rfl | h'
      · exact List.mem_cons_self _ _
      · exact List.mem_cons_of_mem _ (List.mem_cons_of_mem _ (ih h'))
    · rw [escapeQuotes_cons_ne s' ha]
      rcases List.mem_cons.mp h with rfl | h'
      · exact List.mem_cons_self _ _
      · exact List.mem_cons_of_mem _ (ih h')

theorem mem_quoteCell {c : Char} {cell : List Char} (h : c ∈ quoteCell cell) :
    c ∈ cell ∨ c = '\"' := by
  unfold quoteCell at h
  split at h
  · rcases List.mem_cons.mp h with rfl | h'
    · exact Or.inr rfl
    · rcases List.mem_append.mp h' with h'' | h''
      · exact Or.inl (mem_escapeQuotes h'')
      · exact Or.inr (List.mem_singleton.mp h'')
  · split at h
    · rcases List.mem_cons.mp h with rfl | h'
      · exact Or.inr rfl
      · rcases List.mem_append.mp h' with h'' | h''
        · exact Or.inl h''
        · exact Or.inr (List.mem_singleton.mp h'')
    · exact Or.inl h

theorem mem_quoteCell_of_mem {c : Char} {cell : List Char} (h : c ∈ cell) :
    c ∈ quoteCell cell := by
  unfold quoteCell
  split
  · exact List.mem_cons_of_mem _ (List.mem_append_left _ (mem_escapeQuotes_of_mem h))
  · split
    · exact List.mem_cons_of_mem _ (List.mem_append_left _ h)
    · exact h

theorem mem_intercalate {c : Char} {s : List Char} :
    ∀ {xs : List (List Char)}, c ∈ List.intercalate s xs →
      c ∈ s ∨ ∃ x ∈ xs, c ∈ x := by
  intro xs
  induction xs with
  | nil =>
    intro h
    rw [intercalate_nil] at h
    cases h
  | cons x xs' ih =>
    intro h
    rcases xs' with _ | ⟨y, zs⟩
    · rw [intercalate_single] at h
      exact Or.inr ⟨x, List.mem_cons_self _ _, h⟩
    · rw [intercalate_cons₂] at h
      rcases List.mem_append.mp h with h' | h'
      · rcases List.mem_append.mp h' with h'' | h''
        · exact Or.inr ⟨x, List.mem_cons_self _ _, h''⟩
        · exact Or.inl h''
      · rcases ih h' with h'' | ⟨z, hz, hcz⟩
        · exact Or.inl h''
        · exact Or.inr ⟨z, List.mem_cons_of_mem _ hz, hcz⟩

theorem exists_not_ws_of_trim_ne_nil {l : List Char} (h : jsTrimList l ≠ []) :
    ∃ c ∈ l, isJsWs c = false := by
  by_contra hcon
  push_neg at hcon
  apply h
  have h1 : l.dropWhile isJsWs = [] :=
    List.dropWhile_eq_nil_iff.mpr fun a ha => by simpa using hcon a ha
  unfold jsTrimList
  rw [h1]
  rfl

theorem sl_rn (rest : List Char) :
    splitLines ('\r' :: '\n' :: rest) = [] :: splitLines rest := rfl

theorem sl_cons_ne {c : Char} (rest : List Char) (h1 : c ≠ '\n') (h2 : c ≠ '\r') :
    splitLines (c :: rest) =
      match splitLines rest with
      | l :: ls => (c :: l) :: ls
      | [] => [[c]] := by
  rw [splitLines.eq_def]
  split <;> simp_all

theorem splitLines_append {l : List Char} (hl : ∀ c ∈ l, c ≠ '\n' ∧ c ≠ '\r') :
    ∀ {x y : List Char} {ys : List (List Char)}, splitLines x = y :: ys →
      splitLines (l ++ x) = (l ++ y) :: ys := by
  induction l with
  | nil =>
    intro x y ys hx
    rw [List.nil_append, hx, List.nil_append]
  | cons c l' ih =>
    intro x y ys hx
    have hc := hl c (List.mem_cons_self _ _)
    rw [List.cons_append, sl_cons_ne _ hc.1 hc.2,
        ih (fun d hd => hl d (List.mem_cons_of_mem _ hd)) hx]
    rfl

theorem pla_plain {s : List Char} (hs : ∀ ch ∈ s, ch ≠ '\"' ∧ ch ≠ ',') :
    ∀ (cur t : List Char),
      parseLineAux false cur (s ++ t) = parseLineAux false (cur ++ s) t := by
  induction s with
  | nil => intro cur t; rw [List.nil_append, List.append_nil]
  | cons c s' ih =>
    intro cur t
    have hc := hs c (List.mem_cons_self _ _)
    rw [List.cons_append, pla_other false cur _ hc.1 hc.2,
        ih (fun ch hch => hs ch (List.mem_cons_of_mem _ hch)) (cur ++ [c]) t,
        List.append_assoc, List.singleton_append]

theorem pla_inq {s : List Char} (hs : ∀ ch ∈ s, ch ≠ '\"') :
    ∀ (cur t : List Char),
      parseLineAux true cur (s ++ t) = parseLineAux true (cur ++ s) t := by
  induction s with
  | nil => intro cur t; rw [List.nil_append, List.append_nil]
  | cons c s' ih =>
    intro cur t
    have hc := hs c (List.mem_cons_self _ _)
    have ih' := ih (fun ch hch => hs ch (List.mem_cons_of_mem _ hch)) (cur ++ [c]) t
    by_cases hcm : c = ','
    · subst hcm
      rw [List.cons_append, pla_comma_inq, ih', List.append_assoc,
          List.singleton_append]
    · rw [List.cons_append, pla_other true cur _ hc hcm, ih',
          List.append_assoc, List.singleton_append]

theorem pla_escape :
    ∀ (s cur t : List Char),
      parseLineAux true cur (escapeQuotes s ++ t) = parseLineAux true (cur ++ s) t := by
  intro s
  induction s with
  | nil => intro cur t; rw [show escapeQuotes [] = [] from rfl,
      List.nil_append, List.append_nil]
  | cons c s' ih =>
    intro cur t
    by_cases hc : c = '\"'
    · subst hc
      rw [show escapeQuotes ('\"' :: s') = '\"' :: '\"' :: escapeQuotes s' from rfl,
          List.cons_append, List.cons_append, pla_esc, ih (cur ++ ['\"']) t,
          List.append_assoc, List.singleton_append]
    · have ih' := ih (cur ++ [c]) t
      by_cases hcm : c = ','
      · subst hcm
        rw [escapeQuotes_cons_ne s' hc, List.cons_append, pla_comma_inq, ih',
            List.append_assoc, List.singleton_append]
      · rw [escapeQuotes_cons_ne s' hc, List.cons_append,
            pla_other true cur _ hc hcm, ih', List.append_assoc,
            List.singleton_append]

/-- Parsing one quoted/exported cell followed by the end of the line or a
separating comma accumulates exactly the original cell. -/
theorem pla_quoteCell (cell cur : List Char) {t : List Char}
    (ht : t = [] ∨ ∃ t', t = ',' :: t') :
    parseLineAux false cur (quoteCell cell ++ t) =
      parseLineAux false (cur ++ cell) t := by
  have hfinish : ∀ cur' : List Char,
      parseLineAux true cur' ('\"' :: t) = parseLineAux false cur' t := by
    intro cur'
    rcases ht with rfl | ⟨t', rfl⟩
    · rw [pla_close_nil, pla_nil]
    · rw [pla_close cur' t' (by decide)]
  unfold quoteCell
  split
  · rw [List.cons_append, pla_open, List.append_assoc, List.singleton_append,
        pla_escape cell cur ('\"' :: t), hfinish]
  · split
    · rename_i hq _
      rw [List.cons_append, pla_open, List.append_assoc, List.singleton_append,
          pla_inq (fun ch hch => by rintro rfl; exact hq hch) cur ('\"' :: t),
          hfinish]
    · rename_i hq hsep
      refine pla_plain ?_ cur t
      intro ch hch
      constructor
      · rintro rfl; exact hq hch
      · rintro rfl
        exact hsep (Or.inl hch)

/-- Parsing an exported line recovers the row. -/
theorem parseLine_exportLine : ∀ {row : List (List Char)}, row ≠ [] →
    parseLine (exportLine row) = row := by
  intro row
  induction row with
  | nil => intro h; exact absurd rfl h
  | cons c rest ih =>
    intro _
    rcases rest with _ | ⟨c2, rest'⟩
    · show parseLineAux false [] (List.intercalate [','] [quoteCell c]) = [c]
      rw [intercalate_single, ← List.append_nil (quoteCell c),
          pla_quoteCell c [] (Or.inl rfl), List.nil_append, pla_nil]
    · show parseLineAux false []
        (List.intercalate [','] (quoteCell c :: (c2 :: rest').map quoteCell)) =
        c :: c2 :: rest'
      rw [List.map_cons, intercalate_cons₂, List.append_assoc, List.singleton_append,
          pla_quoteCell c [] (Or.inr ⟨_, rfl⟩), List.nil_append, pla_comma]
      exact congrArg (c :: ·) (ih (by simp))

theorem exportLine_no_crlf {row : List (List Char)}
    (hcell : ∀ cell ∈ row, '\n' ∉ cell ∧ '\r' ∉ cell) :
    ∀ c ∈ exportLine row, c ≠ '\n' ∧ c ≠ '\r' := by
  intro c hc
  rcases mem_intercalate hc with h | ⟨x, hx, hcx⟩
  · rw [List.mem_singleton.mp h]
    exact ⟨by decide, by decide⟩
  · rcases List.mem_map.mp hx with ⟨cell, hcell', rfl⟩
    rcases mem_quoteCell hcx with h' | rfl
    · constructor
      · rintro rfl; exact (hcell cell hcell').1 h'
      · rintro rfl; exact (hcell cell hcell').2 h'
    · exact ⟨by decide, by decide⟩

theorem splitLines_exportCSV :
    ∀ {rows : List (List (List Char))}, rows ≠ [] →
      (∀ row ∈ rows, ∀ c ∈ exportLine row, c ≠ '\n' ∧ c ≠ '\r') →
      splitLines (exportCSV rows) = rows.map exportLine := by
  intro rows
  induction rows with
  | nil => intro h; exact absurd rfl h
  | cons r rest ih =>
    intro _ hlines
    rcases rest with _ | ⟨r2, rest'⟩
    · show splitLines (List.intercalate ['\r', '\n'] [exportLine r]) = _
      rw [intercalate_single,
          ← List.append_nil (exportLine r),
          splitLines_append (hlines r (List.mem_cons_self _ _))
            (show splitLines ([] : List Char) = [] :: [] from rfl),
          List.append_nil]
      rfl
    · show splitLines
        (List.intercalate ['\r', '\n'] ((r :: r2 :: rest').map exportLine)) = _
      rw [List.map_cons, List.map_cons, intercalate_cons₂,
          List.append_assoc]
      have hrest := ih (by simp)
        (fun row hrow => hlines row (List.mem_cons_of_mem _ hrow))
      rw [show (['\r', '\n'] ++
            List.intercalate ['\r', '\n'] (exportLine r2 :: rest'.map exportLine)) =
          '\r' :: '\n' ::
            List.intercalate ['\r', '\n'] (exportLine r2 :: rest'.map exportLine)
          from rfl]
      have htail : splitLines ('\r' :: '\n' ::
          List.intercalate ['\r', '\n'] (exportLine r2 :: rest'.map exportLine)) =
          [] :: ((r2 :: rest').map exportLine) := by
        rw [sl_rn]
        have hfold : List.intercalate ['\r', '\n']
            (exportLine r2 :: rest'.map exportLine) = exportCSV (r2 :: rest') := by
          unfold exportCSV
          rw [List.map_cons]
        rw [hfold, hrest]
      rw [splitLines_append (hlines r (List.mem_cons_self _ _)) htail,
          List.append_nil, List.map_cons]

theorem exportLine_trim_ne_nil {row : List (List Char)}
    (hrow : 2 ≤ row.length ∨
      (row.length = 1 ∧ ∀ cell ∈ row, jsTrimList cell ≠ [])) :
    jsTrimList (exportLine row) ≠ [] := by
  rcases hrow with h2 | ⟨h1, hcell⟩
  · rcases row with _ | ⟨c1, _ | ⟨c2, rest⟩⟩
    · simp at h2
    · simp at h2
    · apply jsTrimList_ne_nil (c := ',') _ (by decide)
      show ',' ∈ exportLine (c1 :: c2 :: rest)
      unfold exportLine
      rw [List.map_cons, List.map_cons, intercalate_cons₂]
      exact List.mem_append_left _ (List.mem_append_right _ (by simp))
  · rcases row with _ | ⟨c1, _ | ⟨c2, rest⟩⟩
    · simp at h1
    · rcases exists_not_ws_of_trim_ne_nil
        (hcell c1 (List.mem_cons_self _ _)) with ⟨ch, hch, hws⟩
      apply jsTrimList_ne_nil _ hws
      show ch ∈ exportLine [c1]
      unfold exportLine
      rw [List.map_cons, List.map_nil, intercalate_single]
      exact mem_quoteCell_of_mem hch
    · simp at h1

/-- C10: CSV round trip.  For a table `headers :: data` in which no cell
contains a newline or carriage return and every row has at least two cells
or a single cell that is not entirely whitespace, `parseCSV` applied to the
`exportCSV` output returns exactly the original rows — including cells
containing commas, double quotes, and leading/trailing spaces. -/
theorem csv_roundtrip (headers : List (List Char)) (data : List (List (List Char)))
    (hcell : ∀ row ∈ headers :: data, ∀ cell ∈ row, '\n' ∉ cell ∧ '\r' ∉ cell)
    (hrow : ∀ row ∈ headers :: data, 2 ≤ row.length ∨
      (row.length = 1 ∧ ∀ cell ∈ row, jsTrimList cell ≠ [])) :
    parseCSV (exportCSV (headers :: data)) = headers :: data := by
  unfold parseCSV
  rw [splitLines_exportCSV (by simp)
      (fun row hr => exportLine_no_crlf (hcell row hr))]
  rw [List.filter_eq_self.mpr (by
    intro line hline
    rcases List.mem_map.mp hline with ⟨row, hrowmem, rfl⟩
    simpa using exportLine_trim_ne_nil (hrow row hrowmem))]
  rw [List.map_map]
  have : ∀ row ∈ headers :: data, (parseLine ∘ exportLine) row = id row := by
    intro row hrowmem
    have hne : row ≠ [] := by
      rcases hrow row hrowmem with h2 | ⟨h1, _⟩
      · intro hcontra; rw [hcontra] at h2; simp at h2
      · intro hcontra; rw [hcontra] at h1; simp at h1
    exact parseLine_exportLine hne
  rw [List.map_congr_left this, List.map_id]

theorem csv_roundtrip_witness :
    parseCSV (exportCSV (["a,b".data, "c\"d".data] :: [[" x ".data, "".data]])) =
      ["a,b".data, "c\"d".data] :: [[" x ".data, "".data]] :=
  csv_roundtrip ["a,b".data, "c\"d".data] [[" x ".data, "".data]]
    (by decide) (by decide)

/-! ### Delivery Ledger and Bulk Dispatcher (claim C1)

Modelled from the spec: the Delivery Ledger (spec section 4.3) and the Bulk
Dispatcher loop (spec section 4.4) live in the backend script
`auto_email.py`, which is not under `src/` — the sources here only trigger
it (`handleSend` posts `skip_sent: true`) and the backend README documents
that it "will automatically skip any email addresses that have already been
sent successfully".  Entries are keyed by case-insensitively normalized
email; `wasSent` is true iff the most-recent entry for the key has status
`Sent`; the dispatcher walks the dataset in order with
`skipAlreadySent = true` fixed (the only mode the claims concern): invalid
(empty-email) records are counted and not logged, already-sent recipients
are skipped without a new entry, every other record is handed to the
transport and one `Sent`/`Failed` entry is appended. -/

inductive SendStatus
  | sent
  | failed
  deriving DecidableEq, Repr

structure LedgerEntry where
  email : String
  status : SendStatus
  deriving DecidableEq, Repr

/-- Ledger keys are case-insensitively normalized emails (spec 4.3). -/
def normEmail (e : String) : String := jsLower e

/-- The most-recent-status view: replay all entries in append order, later
entries for a key overriding earlier ones (spec 4.3 `load`). -/
def lastStatus (L : List LedgerEntry) (k : String) : Option SendStatus :=
  L.foldl (fun acc en => if en.email = k then some en.status else acc) none

/-- `wasSent(emailKey)`: the most-recent entry for the key is `Sent`. -/
def wasSent (L : List LedgerEntry) (e : String) : Bool :=
  lastStatus L (normEmail e) = some .sent

/-- A dispatch run's observable state: the ledger, the report counters, and
the normalized emails actually handed to the transport, in order. -/
structure RunState where
  ledger : List LedgerEntry
  sent : Nat
  skipped : Nat
  failed : Nat
  invalid : Nat
  attempts : List String
  deriving DecidableEq, Repr

/-- One record of the dispatcher loop (spec 4.4, steps 1-2 and 5-7), with
`skipAlreadySent = true` and the transport abstracted as a function from
the record's email to success/failure. -/
def dispatchStep (t : String → Bool) (st : RunState) (email : String) : RunState :=
  if email = "" then { st with invalid := st.invalid + 1 }
  else if wasSent st.ledger email then { st with skipped := st.skipped + 1 }
  else if t email then
    { st with ledger := st.ledger ++ [⟨normEmail email, .sent⟩],
              sent := st.sent + 1,
              attempts := st.attempts ++ [normEmail email] }
  else
    { st with ledger := st.ledger ++ [⟨normEmail email, .failed⟩],
              failed := st.failed + 1,
              attempts := st.attempts ++ [normEmail email] }

/-- A full dispatch run over the dataset, starting from ledger `L0`. -/
def dispatchRun (t : String → Bool) (L0 : List LedgerEntry) (ds : List String) :
    RunState :=
  ds.foldl (dispatchStep t) ⟨L0, 0, 0, 0, 0, []⟩

/-- The normalized keys of the dataset's valid (non-empty-email) records. -/
def validKeys (ds : List String) : List String :=
  ds.filterMap fun r => if r = "" then none else some (normEmail r)

/-- The ledger entry a record contributes when dispatched against ledger
`L` (none when invalid or skipped). -/
def entryFor (t : String → Bool) (L : List LedgerEntry) (r : String) :
    Option LedgerEntry :=
  if r = "" then none
  else if wasSent L r then none
  else some ⟨normEmail r, if t r then .sent else .failed⟩

theorem lastStatus_append (L : List LedgerEntry) (en : LedgerEntry) (k : String) :
    lastStatus (L ++ [en]) k =
      if en.email = k then some en.status else lastStatus L k := by
  unfold lastStatus
  rw [List.foldl_append]
  rfl

theorem countP_congr' {α : Type} {p q : α → Bool} :
    ∀ {l : List α}, (∀ a ∈ l, p a = q a) → l.countP p = l.countP q := by
  intro l
  induction l with
  | nil => intro _; rfl
  | cons a l' ih =>
    intro h
    rw [List.countP_cons, List.countP_cons,
        ih fun x hx => h x (List.mem_cons_of_mem _ hx),
        h a (List.mem_cons_self _ _)]

/-- Once a recipient's most-recent ledger entry is `Sent`, a run with
`skipAlreadySent` never hands that recipient to the transport again, and
the recipient stays marked `Sent` (no hypotheses on the dataset needed). -/
theorem dispatch_never_resends (t : String → Bool) (e : String) :
    ∀ (ds : List String) (st : RunState), wasSent st.ledger e = true →
      wasSent (ds.foldl (dispatchStep t) st).ledger e = true ∧
      (ds.foldl (dispatchStep t) st).attempts.count (normEmail e) =
        st.attempts.count (normEmail e) := by
  intro ds
  induction ds with
  | nil => intro st h; exact ⟨h, rfl⟩
  | cons r rest ih =>
    intro st h
    rw [List.foldl_cons]
    by_cases hr : r = ""
    · have hstep : (dispatchStep t st r).ledger = st.ledger ∧
          (dispatchStep t st r).attempts = st.attempts := by
        unfold dispatchStep
        rw [if_pos hr]
        exact ⟨rfl, rfl⟩
      have hrec := ih (dispatchStep t st r) (by rw [hstep.1]; exact h)
      rw [hstep.2] at hrec
      exact hrec
    · by_cases hw : wasSent st.ledger r = true
      · have hstep : (dispatchStep t st r).ledger = st.ledger ∧
            (dispatchStep t st r).attempts = st.attempts := by
          unfold dispatchStep
          rw [if_neg hr, if_pos hw]
          exact ⟨rfl, rfl⟩
        have hrec := ih (dispatchStep t st r) (by rw [hstep.1]; exact h)
        rw [hstep.2] at hrec
        exact hrec
      · replace hw : wasSent st.ledger r = false := Bool.eq_false_iff.mpr hw
        have hne : normEmail r ≠ normEmail e := by
          intro hcontra
          rw [wasSent, hcontra] at hw
          rw [wasSent] at h
          rw [h] at hw
          cases hw
        have hstep : (dispatchStep t st r).ledger = st.ledger ++
              [⟨normEmail r, if t r then .sent else .failed⟩] ∧
            (dispatchStep t st r).attempts = st.attempts ++ [normEmail r] := by
          unfold dispatchStep
          rw [if_neg hr, if_neg (by simp [hw])]
          by_cases ht : t r
          · rw [if_pos ht, if_pos ht]
            exact ⟨rfl, rfl⟩
          · rw [if_neg ht, if_neg ht]
            exact ⟨rfl, rfl⟩
        have hws' : wasSent (dispatchStep t st r).ledger e = true := by
          rw [hstep.1, wasSent, lastStatus_append, if_neg hne]
          exact h
        have := ih (dispatchStep t st r) hws'
        refine ⟨this.1, ?_⟩
        rw [this.2, hstep.2, List.count_append]
        simp [List.count_singleton', hne]

theorem validKeys_cons_ne {r : String} (rest : List String) (hr : r ≠ "") :
    validKeys (r :: rest) = normEmail r :: validKeys rest := by
  unfold validKeys
  rw [List.filterMap_cons, if_neg hr]

theorem validKeys_cons_empty (rest : List String) :
    validKeys ("" :: rest) = validKeys rest := by
  unfold validKeys
  rw [List.filterMap_cons, if_pos rfl]

theorem mem_validKeys {r : String} {ds : List String} (h : r ∈ ds) (hr : r ≠ "") :
    normEmail r ∈ validKeys ds := by
  unfold validKeys
  exact List.mem_filterMap.mpr ⟨r, h, by rw [if_neg hr]⟩

theorem wasSent_append_ne {L : List LedgerEntry} {en : LedgerEntry} {r' : String}
    (hne : en.email ≠ normEmail r') :
    wasSent (L ++ [en]) r' = wasSent L r' := by
  unfold wasSent
  rw [lastStatus_append, if_neg hne]

theorem dispatchRun_spec (t : String → Bool) :
    ∀ (ds : List String) (st : RunState), (validKeys ds).Nodup →
      (ds.foldl (dispatchStep t) st).skipped =
        st.skipped + ds.countP (fun r => !(r == "") && wasSent st.ledger r) ∧
      (ds.foldl (dispatchStep t) st).sent =
        st.sent + ds.countP (fun r => !(r == "") && !(wasSent st.ledger r) && t r) ∧
      (ds.foldl (dispatchStep t) st).ledger =
        st.ledger ++ ds.filterMap (entryFor t st.ledger) := by
  intro ds
  induction ds with
  | nil =>
    intro st _
    refine ⟨by simp, by simp, by simp [entryFor]⟩
  | cons r rest ih =>
    intro st hnd
    rw [List.foldl_cons]
    by_cases hr : r = ""
    · subst hr
      have hnd' : (validKeys rest).Nodup := by
        rwa [validKeys_cons_empty rest] at hnd
      have hstep : (dispatchStep t st "").ledger = st.ledger ∧
          (dispatchStep t st "").skipped = st.skipped ∧
          (dispatchStep t st "").sent = st.sent := by
        unfold dispatchStep
        rw [if_pos rfl]
        exact ⟨rfl, rfl, rfl⟩
      have hrec := ih (dispatchStep t st "") hnd'
      rw [hstep.1, hstep.2.1, hstep.2.2] at hrec
      refine ⟨?_, ?_, ?_⟩
      · rw [hrec.1, List.countP_cons]
        simp
      · rw [hrec.2.1, List.countP_cons]
        simp
      · rw [hrec.2.2, List.filterMap_cons_none
          (show entryFor t st.ledger "" = none from by
            unfold entryFor
            rw [if_pos rfl])]
    · by_cases hw : wasSent st.ledger r = true
      · have hnd' : (validKeys rest).Nodup := by
          rw [validKeys_cons_ne rest hr] at hnd
          exact hnd.of_cons
        have hstep : (dispatchStep t st r).ledger = st.ledger ∧
            (dispatchStep t st r).skipped = st.skipped + 1 ∧
            (dispatchStep t st r).sent = st.sent := by
          unfold dispatchStep
          rw [if_neg hr, if_pos hw]
          exact ⟨rfl, rfl, rfl⟩
        have hrec := ih (dispatchStep t st r) hnd'
        rw [hstep.1, hstep.2.1, hstep.2.2] at hrec
        refine ⟨?_, ?_, ?_⟩
        · rw [hrec.1, List.countP_cons]
          simp [hr, hw]
          omega
        · rw [hrec.2.1, List.countP_cons]
          simp [hw]
        · rw [hrec.2.2, List.filterMap_cons_none
            (show entryFor t st.ledger r = none from by
              unfold entryFor
              rw [if_neg hr, if_pos hw])]
      · replace hw : wasSent st.ledger r = false := Bool.eq_false_iff.mpr hw
        rw [validKeys_cons_ne rest hr] at hnd
        have hnd' := hnd.of_cons
        have hkey : normEmail r ∉ validKeys rest := (List.nodup_cons.mp hnd).1
        have hne : ∀ r' ∈ rest, r' ≠ "" → normEmail r ≠ normEmail r' := by
          intro r' hr' hre hcontra
          exact hkey (hcontra ▸ mem_validKeys hr' hre)
        have hstep : (dispatchStep t st r).ledger =
              st.ledger ++ [⟨normEmail r, if t r then .sent else .failed⟩] ∧
            (dispatchStep t st r).skipped = st.skipped ∧
            (dispatchStep t st r).sent = (if t r then st.sent + 1 else st.sent) := by
          unfold dispatchStep
          rw [if_neg hr, if_neg (by simp [hw])]
          by_cases ht : t r
          · simp [ht]
          · simp [ht]
        have hws' : ∀ r' ∈ rest, wasSent (st.ledger ++
            [⟨normEmail r, if t r then .sent else .failed⟩]) r' =
            wasSent st.ledger r' ∨ r' = "" := by
          intro r' hr'
          by_cases hre : r' = ""
          · exact Or.inr hre
          · exact Or.inl (wasSent_append_ne (hne r' hr' hre))
        have hrec := ih (dispatchStep t st r) hnd'
        rw [hstep.1, hstep.2.1, hstep.2.2] at hrec
        have hcnt1 : rest.countP (fun r' => !(r' == "") && wasSent (st.ledger ++
              [⟨normEmail r, if t r then SendStatus.sent else SendStatus.failed⟩]) r') =
            rest.countP (fun r' => !(r' == "") && wasSent st.ledger r') := by
          apply countP_congr'
          intro r' hr'
          rcases hws' r' hr' with h' | h'
          · rw [h']
          · simp [h']
        have hcnt2 : rest.countP (fun r' => !(r' == "") && !(wasSent (st.ledger ++
              [⟨normEmail r, if t r then SendStatus.sent else SendStatus.failed⟩]) r') && t r') =
            rest.countP (fun r' => !(r' == "") && !(wasSent st.ledger r') && t r') := by
          apply countP_congr'
          intro r' hr'
          rcases hws' r' hr' with h' | h'
          · rw [h']
          · simp [h']
        have hfm : rest.filterMap (entryFor t (st.ledger ++
              [⟨normEmail r, if t r then SendStatus.sent else SendStatus.failed⟩])) =
            rest.filterMap (entryFor t st.ledger) := by
          apply List.filterMap_congr
          intro r' hr'
          unfold entryFor
          by_cases hre : r' = ""
          · rw [if_pos hre, if_pos hre]
          · rcases hws' r' hr' with h' | h'
            · rw [if_neg hre, if_neg hre, h']
            · exact absurd h' hre
        rw [hcnt1, hcnt2, hfm] at hrec
        refine ⟨?_, ?_, ?_⟩
        · rw [hrec.1, List.countP_cons]
          simp [hr, hw]
        · rw [hrec.2.1, List.countP_cons]
          by_cases ht : t r
          · simp [hr, hw, ht]
            omega
          · simp [hr, hw, ht]
        · rw [hrec.2.2, List.filterMap_cons_some
            (show entryFor t st.ledger r = some
                ⟨normEmail r, if t r then .sent else .failed⟩ from by
              unfold entryFor
              rw [if_neg hr, if_neg (by simp [hw])]),
            List.append_assoc, List.singleton_append]

theorem foldl_status_skip (k : String) :
    ∀ (L : List LedgerEntry) (a : Option SendStatus),
      (∀ en ∈ L, en.email ≠ k) →
      L.foldl (fun acc en => if en.email = k then some en.status else acc) a = a := by
  intro L
  induction L with
  | nil => intro a _; rfl
  | cons en L ih =>
    intro a h
    rw [List.foldl_cons, if_neg (h en (List.mem_cons_self _ _))]
    exact ih a fun x hx => h x (List.mem_cons_of_mem _ hx)

theorem foldl_status_acc (k : String) :
    ∀ (L : List LedgerEntry), (∃ en ∈ L, en.email = k) →
      ∀ (a b : Option SendStatus),
      L.foldl (fun acc en => if en.email = k then some en.status else acc) a =
      L.foldl (fun acc en => if en.email = k then some en.status else acc) b := by
  intro L
  induction L with
  | nil =>
    rintro ⟨en, hmem, _⟩
    cases hmem
  | cons e L ih =>
    rintro ⟨en, hmem, hk⟩ a b
    rw [List.foldl_cons, List.foldl_cons]
    by_cases he : e.email = k
    · rw [if_pos he, if_pos he]
    · rw [if_neg he, if_neg he]
      rcases List.mem_cons.mp hmem with rfl | hmem'
      · exact absurd hk he
      · exact ih ⟨en, hmem', hk⟩ a b

theorem entry_mem_keys {t : String → Bool} {L : List LedgerEntry} {ds : List String}
    {en : LedgerEntry} (h : en ∈ ds.filterMap (entryFor t L)) :
    en.email ∈ validKeys ds := by
  rcases List.mem_filterMap.mp h with ⟨r, hr, hfr⟩
  unfold entryFor at hfr
  by_cases hre : r = ""
  · rw [if_pos hre] at hfr
    cases hfr
  · rw [if_neg hre] at hfr
    by_cases hws : wasSent L r = true
    · rw [if_pos hws] at hfr
      cases hfr
    · rw [if_neg hws] at hfr
      injection hfr with h1
      rw [← h1]
      exact mem_validKeys hr hre

/-- After a run from the empty ledger over a dataset with distinct valid
keys, each valid recipient's most-recent status records that run's
transport outcome for them. -/
theorem lastStatus_filterMap (t : String → Bool) :
    ∀ (ds : List String) (r : String), (validKeys ds).Nodup → r ∈ ds → r ≠ "" →
      lastStatus (ds.filterMap (entryFor t [])) (normEmail r) =
        some (if t r then .sent else .failed) := by
  intro ds
  induction ds with
  | nil =>
    intro r _ hmem _
    cases hmem
  | cons a rest ih =>
    intro r hnd hmem hre
    by_cases ha : a = ""
    · subst ha
      rw [List.filterMap_cons_none (show entryFor t [] "" = none from by
        unfold entryFor
        rw [if_pos rfl])]
      rcases List.mem_cons.mp hmem with rfl | hmem'
      · exact absurd rfl hre
      · exact ih r (by rwa [validKeys_cons_empty] at hnd) hmem' hre
    · have hws : wasSent ([] : List LedgerEntry) a = false := by
        simp [wasSent, lastStatus]
      rw [List.filterMap_cons_some (show entryFor t [] a =
          some ⟨normEmail a, if t a then .sent else .failed⟩ from by
        unfold entryFor
        rw [if_neg ha, if_neg (by simp [hws])])]
      rw [validKeys_cons_ne rest ha] at hnd
      rcases List.mem_cons.mp hmem with rfl | hmem'
      · have hkey : normEmail r ∉ validKeys rest := (List.nodup_cons.mp hnd).1
        have hskip : ∀ en ∈ rest.filterMap (entryFor t []), en.email ≠ normEmail r := by
          intro en hen hcontra
          exact hkey (hcontra ▸ entry_mem_keys hen)
        unfold lastStatus
        rw [List.foldl_cons, foldl_status_skip (normEmail r) _ _ hskip, if_pos rfl]
      · have hlast' := ih r hnd.of_cons hmem' hre
        have hex : ∃ en ∈ rest.filterMap (entryFor t []), en.email = normEmail r := by
          refine ⟨⟨normEmail r, if t r then .sent else .failed⟩, ?_, rfl⟩
          apply List.mem_filterMap.mpr
          refine ⟨r, hmem', ?_⟩
          unfold entryFor
          rw [if_neg hre, if_neg (by simp [wasSent, lastStatus])]
        unfold lastStatus
        rw [List.foldl_cons, foldl_status_acc (normEmail r) _ hex _ none]
        exact hlast'

/-- C1 (corrected): with `skipAlreadySent` on, a recipient whose
most-recent ledger entry is `Sent` is never handed to the transport again
and stays `Sent`, across any further run; and when the dataset's valid
normalized keys are pairwise distinct, re-running the job against the
ledger produced by a first run from an empty ledger yields a skipped count
equal to the first run's sent count.  (The distinctness hypothesis is
necessary: the count equality fails verbatim on a dataset that repeats a
recipient.) -/
theorem dispatch_skip_sent_idempotent (t1 t2 : String → Bool)
    (ds : List String) (L0 : List LedgerEntry) (e : String)
    (hsent : wasSent L0 e = true) (hnd : (validKeys ds).Nodup) :
    ((dispatchRun t2 L0 ds).attempts.count (normEmail e) = 0 ∧
      wasSent (dispatchRun t2 L0 ds).ledger e = true) ∧
    (dispatchRun t2 (dispatchRun t1 [] ds).ledger ds).skipped =
      (dispatchRun t1 [] ds).sent := by
  constructor
  · have h := dispatch_never_resends t2 e ds ⟨L0, 0, 0, 0, 0, []⟩ hsent
    exact ⟨by rw [show (dispatchRun t2 L0 ds).attempts =
        (ds.foldl (dispatchStep t2) ⟨L0, 0, 0, 0, 0, []⟩).attempts from rfl, h.2]; rfl,
      h.1⟩
  · have hsent1 : (dispatchRun t1 [] ds).sent =
        0 + ds.countP (fun r => !(r == "") && !(wasSent [] r) && t1 r) :=
      (dispatchRun_spec t1 ds ⟨[], 0, 0, 0, 0, []⟩ hnd).2.1
    have hled1 : (dispatchRun t1 [] ds).ledger =
        [] ++ ds.filterMap (entryFor t1 []) :=
      (dispatchRun_spec t1 ds ⟨[], 0, 0, 0, 0, []⟩ hnd).2.2
    have hskip2 : (dispatchRun t2 (dispatchRun t1 [] ds).ledger ds).skipped =
        0 + ds.countP (fun r => !(r == "") && wasSent (dispatchRun t1 [] ds).ledger r) :=
      (dispatchRun_spec t2 ds ⟨(dispatchRun t1 [] ds).ledger, 0, 0, 0, 0, []⟩ hnd).1
    rw [hskip2, hsent1, Nat.zero_add, Nat.zero_add]
    apply countP_congr'
    intro r hr
    by_cases hre : r = ""
    · simp [hre]
    · have hnil : wasSent [] r = false := by
        simp [wasSent, lastStatus]
      have hlast := lastStatus_filterMap t1 ds r hnd hr hre
      rw [hled1, List.nil_append, hnil]
      by_cases ht : t1 r
      · simp [wasSent, hlast, ht, hre]
      · simp [wasSent, hlast, ht, hre]

/-- C1's skipped-equals-sent equality is false as stated (without a
distinctness assumption on the dataset's recipients): on a dataset that
lists the same recipient twice, with an always-succeeding transport, the
first run sends once and skips once, while the re-run skips twice. -/
theorem dispatch_idempotent_counterexample :
    (dispatchRun (fun _ => true) (dispatchRun (fun _ => true) []
        ["a@x.com", "a@x.com"]).ledger ["a@x.com", "a@x.com"]).skipped = 2 ∧
    (dispatchRun (fun _ => true) [] ["a@x.com", "a@x.com"]).sent = 1 := by
  constructor
  · rfl
  · rfl

/-- Concrete instance of the corrected C1 theorem: both hypotheses hold
and both conclusions evaluate on a two-recipient dataset. -/
theorem dispatch_skip_sent_idempotent_witness :
    wasSent [⟨"a@x.com", SendStatus.sent⟩] "A@x.com" = true ∧
    (validKeys ["a@x.com", "b@y.com"]).Nodup ∧
    (((dispatchRun (fun _ => true) [⟨"a@x.com", SendStatus.sent⟩]
          ["a@x.com", "b@y.com"]).attempts.count (normEmail "A@x.com") = 0 ∧
        wasSent (dispatchRun (fun _ => true) [⟨"a@x.com", SendStatus.sent⟩]
          ["a@x.com", "b@y.com"]).ledger "A@x.com" = true) ∧
      (dispatchRun (fun _ => true) (dispatchRun (fun _ => true) []
          ["a@x.com", "b@y.com"]).ledger ["a@x.com", "b@y.com"]).skipped =
        (dispatchRun (fun _ => true) [] ["a@x.com", "b@y.com"]).sent) :=
  ⟨by decide, by decide,
    dispatch_skip_sent_idempotent (fun _ => true) (fun _ => true)
      ["a@x.com", "b@y.com"] [⟨"a@x.com", SendStatus.sent⟩] "A@x.com"
      (by decide) (by decide)⟩

end EmailAutomation
